import Mathlib

set_option linter.unusedSectionVars false

/-!
Verification development for the core of pytest-dir-equal
(src/pytest_dir_equal/syrupy): the recursive tree comparator (DirDiff),
the file content differ (FileDiff with word-level diff rendering), the
name filter, and the snapshot store (PathSnapshotExtension).

Modelling conventions (shallow embedding):
  * File contents are byte lists (List Nat, each < 256); paths are part
    lists (List String); a directory tree is the inductive FsEntry.
  * The no-markup rendering path is modelled: with pygments absent or
    color disabled, highlight_file / highlight_diff and the syrupy
    terminal style helpers (reset, received_style, ...) all return their
    argument unchanged, so they are identities here.
  * Text decoding (Path.read_text) is modelled on the ASCII fragment of
    UTF-8: bytes below 0x80 decode to the corresponding character and any
    byte at or above 0x80 makes decoding fail with UnicodeDecodeError
    (in full UTF-8 a stray byte such as 0xFF fails the same way).  The
    two properties the proofs use, partiality and injectivity of
    decoding, hold for full strict UTF-8 as well.
  * difflib.SequenceMatcher is modelled without the autojunk popular
    entry heuristic, which the source only triggers for sequences of 200
    or more elements and which only influences which maximal matching
    block is selected.
  * Filesystem faults (permission errors, files vanishing mid-walk) are
    outside the model: every file is a readable regular file.  filecmp
    branches that only fire on OSError are kept in the definitions and
    proved unreachable.
  * Recursions that descend through directory lookups are written with an
    explicit fuel argument (structural over Nat, hence kernel reducible);
    the public wrappers pass a sizeOf based fuel that is proved
    sufficient, so the wrappers agree with the source's unbounded
    recursion.
-/

namespace DirEqual

/-! ## Basic string utilities -/

/-- Code point comparison of char lists, the order Python's `list.sort()`
uses on strings (lexicographic by code point). -/
def charListLe : List Char → List Char → Bool
  | [], _ => true
  | _ :: _, [] => false
  | c :: cs, d :: ds =>
    if c.toNat < d.toNat then true
    else if d.toNat < c.toNat then false
    else charListLe cs ds

def strLe (a b : String) : Bool := charListLe a.data b.data

/-- Insertion step of a stable sort; `sortNames` models Python's
`list.sort()` on a list of strings. -/
def insSorted (s : String) : List String → List String
  | [] => [s]
  | x :: xs => if strLe s x then s :: x :: xs else x :: insSorted s xs

def sortNames (l : List String) : List String := l.foldr insSorted []

/-- Path join on display prefixes: `Path("") / name` is `Path(name)`, and
`Path(p) / name` renders as `p/name`. -/
def joinPath (p name : String) : String :=
  if p = "" then name else p ++ "/" ++ name

/-- Helper: longest common prefix of two lists. -/
def commonPrefixAux : List String → List String → List String
  | a :: as', b :: bs' => if a = b then a :: commonPrefixAux as' bs' else []
  | _, _ => []

/-- `_common_suffix(left, right)`: walk both part lists from the end while
parts agree, join the common tail with the path separator. -/
def common_suffix (leftParts rightParts : List String) : String :=
  String.intercalate "/" (commonPrefixAux leftParts.reverse rightParts.reverse).reverse

/-- Display identity of a `FileDiff` pair (`FileDiff.name`): the common
trailing segments, or `left.name<>right.name` when no segment is shared. -/
def fileDiffName (leftParts rightParts : List String) : String :=
  let cs := common_suffix leftParts rightParts
  if cs = "" then
    (leftParts.getLastD "") ++ "<>" ++ (rightParts.getLastD "")
  else cs

/-- Python `line.rstrip("\n")`: drop every trailing newline character. -/
def rstripNL (s : String) : String :=
  String.mk ((s.data.reverse.dropWhile (fun c => c = '\n')).reverse)

/-! ## Text decoding and splitlines -/

/-- `Path.read_text()` on the ASCII fragment (see header): all bytes below
0x80 decode, any other byte raises UnicodeDecodeError (`none`). -/
def decodeText (bytes : List Nat) : Option String :=
  if bytes.all (fun b => b < 128) then some (String.mk (bytes.map Char.ofNat)) else none

/-- The line break characters `str.splitlines` recognises in the ASCII
range: LF, VT, FF, CR, FS, GS, RS. -/
def isLineBreak (c : Char) : Bool :=
  c.toNat = 10 || c.toNat = 11 || c.toNat = 12 || c.toNat = 13 ||
  c.toNat = 28 || c.toNat = 29 || c.toNat = 30

/-- `str.splitlines(keepends=True)`: split after every line break, with
CRLF kept as a single break, keeping the break characters. -/
def splitlinesAux (acc : List Char) : List Char → List (List Char)
  | [] => if acc = [] then [] else [acc.reverse]
  | [c] =>
    if isLineBreak c then [acc.reverse ++ [c]] else [acc.reverse ++ [c]]
  | c :: d :: rest =>
    if c.toNat = 13 then
      if d.toNat = 10 then (acc.reverse ++ [c, d]) :: splitlinesAux [] rest
      else (acc.reverse ++ [c]) :: splitlinesAux [] (d :: rest)
    else if isLineBreak c then (acc.reverse ++ [c]) :: splitlinesAux [] (d :: rest)
    else splitlinesAux (c :: acc) (d :: rest)

def splitlines (s : String) : List String :=
  (splitlinesAux [] s.data).map String.mk

/-- Joining the kept-ends lines restores the input (hence `splitlines` is
injective). -/
theorem splitlinesAux_join (acc : List Char) (l : List Char) :
    (splitlinesAux acc l).flatten = acc.reverse ++ l := by
  induction acc, l using splitlinesAux.induct <;> simp_all [splitlinesAux]

theorem splitlines_injective (s t : String) (h : splitlines s = splitlines t) : s = t := by
  have flat_mk : ∀ L : List (List Char),
      ((L.map String.mk).map String.data).flatten = L.flatten := by
    intro L; induction L with
    | nil => rfl
    | cons x xs ih => simp_all
  have e1 : ((splitlines s).map String.data).flatten = s.data := by
    have h1 := flat_mk (splitlinesAux [] s.data)
    have h2 := splitlinesAux_join [] s.data
    simpa [splitlines, h2] using h1
  have e2 : ((splitlines t).map String.data).flatten = t.data := by
    have h1 := flat_mk (splitlinesAux [] t.data)
    have h2 := splitlinesAux_join [] t.data
    simpa [splitlines, h2] using h1
  have hdata : s.data = t.data := by rw [← e1, ← e2, h]
  exact congrArg String.mk hdata

/-- Decoding is injective: a decoded string determines the bytes. -/
theorem decodeText_injective (b1 b2 : List Nat) (s : String)
    (h1 : decodeText b1 = some s) (h2 : decodeText b2 = some s) : b1 = b2 := by
  unfold decodeText at h1 h2
  by_cases c1 : b1.all (fun b => b < 128) <;> simp [c1] at h1
  by_cases c2 : b2.all (fun b => b < 128) <;> simp [c2] at h2
  have toNat_ofNat : ∀ m : Nat, m < 128 → (Char.ofNat m).toNat = m := by
    intro m hm
    unfold Char.ofNat
    have hv : Nat.isValidChar m := Or.inl (by omega)
    rw [dif_pos hv]
    rfl
  have hmap : b1.map Char.ofNat = b2.map Char.ofNat := by
    have := h1.trans h2.symm
    injection this
  have all1 := List.all_eq_true.mp c1
  have all2 := List.all_eq_true.mp c2
  have : (b1.map Char.ofNat).map Char.toNat = (b2.map Char.ofNat).map Char.toNat := by
    rw [hmap]
  rw [List.map_map, List.map_map] at this
  calc b1 = b1.map (Char.toNat ∘ Char.ofNat) := by
        rw [List.map_congr_left, List.map_id]
        intro a ha
        simp [toNat_ofNat a (by simpa using all1 a ha)]
    _ = b2.map (Char.toNat ∘ Char.ofNat) := this
    _ = b2 := by
        rw [List.map_congr_left, List.map_id]
        intro a ha
        simp [toNat_ofNat a (by simpa using all2 a ha)]

/-! ## Glob matching and the name filter -/

/-- Glob matching as `fnmatch.fnmatch` implements it on POSIX
(`os.path.normcase` is the identity there): the whole name must match, with
`*` matching any run of characters and `?` any single character.  Character
classes `[...]` are not modelled.  Written with explicit fuel (one unit per
consumed name or pattern character) so it stays kernel reducible; every
recursive call shrinks name length plus pattern length, so
`globMatch` below always supplies enough. -/
def globMatchF : Nat → List Char → List Char → Bool
  | 0, s, p => s.isEmpty && p.isEmpty
  | _ + 1, [], [] => true
  | f + 1, [], p :: ps => if p = '*' then globMatchF f [] ps else false
  | _ + 1, _ :: _, [] => false
  | f + 1, c :: cs, p :: ps =>
    if p = '*' then globMatchF f (c :: cs) ps || globMatchF f cs (p :: ps)
    else if p = '?' || p = c then globMatchF f cs ps
    else false

def globMatch (s p : String) : Bool :=
  globMatchF (s.data.length + p.data.length + 1) s.data p.data

/-- Fuel irrelevance: any fuel of at least name length plus pattern length
plus one gives the same answer. -/
theorem globMatchF_fuel (f g : Nat) (s p : List Char)
    (hf : s.length + p.length + 1 ≤ f) (hg : s.length + p.length + 1 ≤ g) :
    globMatchF f s p = globMatchF g s p := by
  induction f generalizing g s p with
  | zero => omega
  | succ f ih =>
    match g, hg with
    | g + 1, hg =>
      match s, p with
      | [], [] => rfl
      | [], q :: ps =>
        simp only [globMatchF]
        by_cases hq : q = '*'
        · simp only [hq, if_pos rfl]
          exact ih g [] ps (by simp at hf ⊢; omega) (by simp at hg ⊢; omega)
        · simp [hq]
      | c :: cs, [] => rfl
      | c :: cs, q :: ps =>
        simp only [globMatchF]
        by_cases hq : q = '*'
        · subst hq
          rw [if_pos rfl, if_pos rfl,
            ih g (c :: cs) ps (by simp at hf ⊢; omega) (by simp at hg ⊢; omega),
            ih g cs ('*' :: ps) (by simp at hf ⊢; omega) (by simp at hg ⊢; omega)]
        · rw [if_neg hq, if_neg hq]
          by_cases hc : (q = '?' || q = c) = true
          · rw [if_pos hc, if_pos hc]
            exact ih g cs ps (by simp at hf ⊢; omega) (by simp at hg ⊢; omega)
          · rw [if_neg hc, if_neg hc]

/-- The pattern consisting of a single star matches every name. -/
theorem globMatch_star (s : String) : globMatch s "*" = true := by
  show globMatchF (s.data.length + ("*".data).length + 1) s.data ['*'] = true
  have key : ∀ f l, l.length + 2 ≤ f → globMatchF f l ['*'] = true := by
    intro f
    induction f with
    | zero => intro l h; omega
    | succ f ih =>
      intro l h
      match l with
      | [] =>
        have : globMatchF f ([] : List Char) [] = true := by
          match f, h with
          | f + 1, _ => rfl
        simp [globMatchF, this]
      | c :: cs =>
        simp only [globMatchF, if_pos rfl]
        rw [ih cs (by simp at h ⊢; omega)]
        simp
  exact key _ _ (by simp)

/-- `fnmatch.filter(names, pattern)`: the sublist of names matching the
pattern. -/
def fnmatchFilter (names : List String) (pat : String) : List String :=
  names.filter (fun nm => globMatch nm pat)

/-- `_filter(flist, skip)` from diff.py: one `filterfalse` pass per pattern,
each removing the names contained in that pattern's `fnmatch.filter`. -/
def _filter (flist : List String) (skip : List String) : List String :=
  skip.foldl
    (fun fl pat => fl.filter (fun nm => !(fnmatchFilter fl pat).contains nm))
    flist

/-- One `filterfalse` pass removes exactly the names matching the pattern:
membership in `fnmatch.filter(fl, pattern)` is equivalent to matching, for
the elements of `fl` itself. -/
theorem filter_pass_eq (fl : List String) (pat : String) :
    fl.filter (fun nm => !(fnmatchFilter fl pat).contains nm)
      = fl.filter (fun nm => !globMatch nm pat) := by
  apply List.filter_congr
  intro nm hnm
  simp only [fnmatchFilter, List.contains, List.elem_iff, Bool.not_eq_true', List.mem_filter]
  by_cases h : globMatch nm pat = true
  · simp [h, hnm]
  · simp [h]

theorem _filter_eq_filter (flist skip : List String) :
    _filter flist skip
      = flist.filter (fun nm => skip.all (fun pat => !globMatch nm pat)) := by
  induction skip generalizing flist with
  | nil => simp [_filter]
  | cons pat rest ih =>
    show _filter (flist.filter (fun nm => !(fnmatchFilter flist pat).contains nm)) rest = _
    rw [filter_pass_eq, ih, List.filter_filter]
    apply List.filter_congr
    intro nm _
    simp [Bool.and_comm]

/-- C9: for every list of names and every list of glob patterns, `_filter`
returns exactly the names matching none of the patterns (union semantics
over the patterns), in input order (it is a filter, hence a sublist of the
input); an empty pattern list returns the input unchanged, a pattern list
matching nothing is a no-op, and the pattern `*` removes every name. -/
theorem name_filter_contract (flist skip : List String) :
    _filter flist skip
        = flist.filter (fun nm => skip.all (fun pat => !globMatch nm pat))
      ∧ (_filter flist skip).Sublist flist
      ∧ _filter flist [] = flist
      ∧ (skip.all (fun pat => flist.all (fun nm => !globMatch nm pat)) = true →
          _filter flist skip = flist)
      ∧ _filter flist ["*"] = [] := by
  have h1 := _filter_eq_filter flist skip
  refine ⟨h1, ?_, rfl, ?_, ?_⟩
  · rw [h1]; exact List.filter_sublist flist
  · intro hall
    rw [h1]
    apply List.filter_eq_self.mpr
    intro nm hnm
    simp only [List.all_eq_true] at hall ⊢
    intro pat hpat
    have := hall pat hpat
    simp only [List.all_eq_true] at this
    exact this nm hnm
  · rw [_filter_eq_filter]
    apply List.filter_eq_nil_iff.mpr
    intro nm _
    simp [globMatch_star]

/-- Witness for C9 at concrete inputs: patterns matching nothing leave the
list unchanged. -/
theorem name_filter_contract_witness :
    _filter ["a.txt", "b.txt"] ["*.bin"] = ["a.txt", "b.txt"] :=
  (name_filter_contract ["a.txt", "b.txt"] ["*.bin"]).2.2.2.1 (by decide)

/-! ## difflib.SequenceMatcher

Modelled generically over element types with decidable equality (it is used
at two levels: on lines for `wdiff` and on characters for the intra-line
word diffs).  `find_longest_match` is modelled by its input/output
contract, which the chaining dictionary algorithm implements for inputs
where the junk sets are empty (no `isjunk` argument is ever passed in this
code base, and the autojunk popularity heuristic needs 200 or more
elements): the longest matching block, earliest in `(i, j)` lexicographic
order among the longest.  The queue-plus-sort of `get_matching_blocks` is
modelled by the equivalent in-order recursive decomposition (left window
blocks all precede the found block, which precedes all right window
blocks). -/

section SeqMatcher

variable {α : Type} [DecidableEq α]

/-- Length of the run of equal elements of `a` and `b` starting at `(i, j)`,
bounded by the fuel `lim`. -/
def runLen (a b : List α) : Nat → Nat → Nat → Nat
  | 0, _, _ => 0
  | lim + 1, i, j =>
    match a[i]?, b[j]? with
    | some x, some y => if x = y then runLen a b lim (i + 1) (j + 1) + 1 else 0
    | _, _ => 0

/-- Fold step: a candidate start `(i, j)` replaces the best block found so
far only when its run is strictly longer (difflib keeps the first best). -/
def flmStep (a b : List α) (ahi bhi : Nat) (best : Nat × Nat × Nat)
    (c : Nat × Nat) : Nat × Nat × Nat :=
  let k := runLen a b (min (ahi - c.1) (bhi - c.2)) c.1 c.2
  if best.2.2 < k then (c.1, c.2, k) else best

/-- Candidate starts of the window, in `(i, j)` lexicographic order. -/
def flmCandidates (alo ahi blo bhi : Nat) : List (Nat × Nat) :=
  (List.range' alo (ahi - alo)).flatMap
    (fun i => (List.range' blo (bhi - blo)).map (fun j => (i, j)))

/-- `SequenceMatcher.find_longest_match` on the window
`a[alo:ahi]`, `b[blo:bhi]` (junk-free contract, see section header). -/
def findLongestMatch (a b : List α) (alo ahi blo bhi : Nat) : Nat × Nat × Nat :=
  (flmCandidates alo ahi blo bhi).foldl (flmStep a b ahi bhi) (alo, blo, 0)

/-- `get_matching_blocks` before merging: recursive window decomposition
(fuel decreases because each sub-window is strictly smaller). -/
def matchingBlocksF (a b : List α) : Nat → Nat → Nat → Nat → Nat → List (Nat × Nat × Nat)
  | 0, _, _, _, _ => []
  | fuel + 1, alo, ahi, blo, bhi =>
    let m := findLongestMatch a b alo ahi blo bhi
    if m.2.2 = 0 then []
    else
      (if alo < m.1 ∧ blo < m.2.1 then matchingBlocksF a b fuel alo m.1 blo m.2.1 else []) ++
      m ::
        (if m.1 + m.2.2 < ahi ∧ m.2.1 + m.2.2 < bhi then
          matchingBlocksF a b fuel (m.1 + m.2.2) ahi (m.2.1 + m.2.2) bhi
        else [])

/-- The adjacent-block merging loop at the end of `get_matching_blocks`. -/
def nonAdjacent : Nat × Nat × Nat → List (Nat × Nat × Nat) → List (Nat × Nat × Nat)
  | acc, [] => if acc.2.2 ≠ 0 then [acc] else []
  | acc, blk :: rest =>
    if acc.1 + acc.2.2 = blk.1 ∧ acc.2.1 + acc.2.2 = blk.2.1 then
      nonAdjacent (acc.1, acc.2.1, acc.2.2 + blk.2.2) rest
    else
      (if acc.2.2 ≠ 0 then [acc] else []) ++ nonAdjacent blk rest

/-- `SequenceMatcher.get_matching_blocks`: decompose, merge adjacent
blocks, append the `(la, lb, 0)` terminator. -/
def getMatchingBlocks (a b : List α) : List (Nat × Nat × Nat) :=
  nonAdjacent (0, 0, 0)
      (matchingBlocksF a b (a.length + b.length + 1) 0 a.length 0 b.length)
    ++ [(a.length, b.length, 0)]

inductive Tag where
  | equal
  | delete
  | insert
  | replace
  deriving DecidableEq, Repr

structure Op where
  tag : Tag
  i1 : Nat
  i2 : Nat
  j1 : Nat
  j2 : Nat
  deriving DecidableEq, Repr

/-- The loop of `SequenceMatcher.get_opcodes`: walk the matching blocks,
emitting a gap opcode (replace / delete / insert) before each block and an
equal opcode for the block itself. -/
def opcodesGo : Nat → Nat → List (Nat × Nat × Nat) → List Op
  | _, _, [] => []
  | i, j, (ai, bj, size) :: rest =>
    (if i < ai ∧ j < bj then [⟨.replace, i, ai, j, bj⟩]
     else if i < ai then [⟨.delete, i, ai, j, bj⟩]
     else if j < bj then [⟨.insert, i, ai, j, bj⟩]
     else []) ++
    (if size ≠ 0 then [⟨.equal, ai, ai + size, bj, bj + size⟩] else []) ++
    opcodesGo (ai + size) (bj + size) rest

def getOpcodes (a b : List α) : List Op := opcodesGo 0 0 (getMatchingBlocks a b)

/-- Shrink a leading equal opcode to at most `n` lines of context. -/
def trimHead (n : Nat) : List Op → List Op
  | [] => []
  | op :: rest =>
    if op.tag = .equal then
      ⟨.equal, max op.i1 (op.i2 - n), op.i2, max op.j1 (op.j2 - n), op.j2⟩ :: rest
    else op :: rest

/-- Shrink a trailing equal opcode to at most `n` lines of context. -/
def trimLast (n : Nat) : List Op → List Op
  | [] => []
  | [op] =>
    if op.tag = .equal then
      [⟨.equal, op.i1, min op.i2 (op.i1 + n), op.j1, min op.j2 (op.j1 + n)⟩]
    else [op]
  | op :: rest => op :: trimLast n rest

/-- The grouping loop of `get_grouped_opcodes`: split the opcode stream at
every equal opcode longer than `2 n`, trimming it to `n` lines on each side
of the split; the final group is dropped when it is a single equal opcode. -/
def groupLoop (n : Nat) : List Op → List Op → List (List Op)
  | group, [] =>
    match group with
    | [] => []
    | [op] => if op.tag = .equal then [] else [[op]]
    | _ => [group]
  | group, op :: rest =>
    if op.tag = .equal ∧ 2 * n < op.i2 - op.i1 then
      (group ++ [⟨.equal, op.i1, min op.i2 (op.i1 + n), op.j1, min op.j2 (op.j1 + n)⟩]) ::
        groupLoop n [⟨.equal, max op.i1 (op.i2 - n), op.i2, max op.j1 (op.j2 - n), op.j2⟩] rest
    else groupLoop n (group ++ [op]) rest

/-- `SequenceMatcher.get_grouped_opcodes(n)` (an empty opcode stream is
replaced by a dummy equal opcode, then the leading and trailing context is
trimmed and the stream split into groups). -/
def getGroupedOpcodes (a b : List α) (n : Nat) : List (List Op) :=
  groupLoop n [] (trimLast n (trimHead n
    (if getOpcodes a b = [] then [⟨.equal, 0, 1, 0, 1⟩] else getOpcodes a b)))

end SeqMatcher

/-! ## wdiff rendering and FileDiff -/

/-- Python slice `l[i:j]`. -/
def sliceL {α : Type} (l : List α) (i j : Nat) : List α := (l.drop i).take (j - i)

/-- `difflib._format_range_unified`. -/
def _format_range_unified (start stop : Nat) : String :=
  let length := stop - start
  if length = 1 then toString (start + 1)
  else toString (if length = 0 then start else start + 1) ++ "," ++ toString length

/-- `added_line_wdiff(a, b)`: rebuild `b`, wrapping inserted and replaced
spans in `{+ +}` markers, dropping deleted spans, passing equal spans
through (code diff.py:53-68; braces written with escapes). -/
def added_line_wdiff (a b : String) : String :=
  String.join ((getOpcodes a.data b.data).map (fun op =>
    match op.tag with
    | .replace => "\x7b+" ++ String.mk (sliceL b.data op.j1 op.j2) ++ "+\x7d"
    | .insert => "\x7b+" ++ String.mk (sliceL b.data op.j1 op.j2) ++ "+\x7d"
    | .delete => ""
    | .equal => String.mk (sliceL a.data op.i1 op.i2)))

/-- `removed_line_wdiff(a, b)`: rebuild `a`, wrapping replaced and deleted
spans in `[- -]` markers, dropping inserted spans (diff.py:71-86). -/
def removed_line_wdiff (a b : String) : String :=
  String.join ((getOpcodes a.data b.data).map (fun op =>
    match op.tag with
    | .replace => "[-" ++ String.mk (sliceL a.data op.i1 op.i2) ++ "-]"
    | .delete => "[-" ++ String.mk (sliceL a.data op.i1 op.i2) ++ "-]"
    | .equal => String.mk (sliceL a.data op.i1 op.i2)
    | .insert => ""))

/-- The per-opcode rendering of `wdiff`'s inner loop (diff.py:102-118):
equal lines with a space prefix, deleted lines with `- `, inserted lines
with `+ `, and for replace opcodes the zip of the two ranges rendered first
as removed lines then as added lines. -/
def renderOp (a b : List String) (op : Op) : List String :=
  match op.tag with
  | .equal => (sliceL a op.i1 op.i2).map (fun line => " " ++ line)
  | .delete => (sliceL a op.i1 op.i2).map (fun line => "- " ++ line)
  | .insert => (sliceL b op.j1 op.j2).map (fun line => "+ " ++ line)
  | .replace =>
    ((sliceL a op.i1 op.i2).zip (sliceL b op.j1 op.j2)).map
      (fun p => "- " ++ removed_line_wdiff p.1 p.2) ++
    ((sliceL a op.i1 op.i2).zip (sliceL b op.j1 op.j2)).map
      (fun p => "+ " ++ added_line_wdiff p.1 p.2)

/-- One hunk of `wdiff`: the `@@` header built from the first and last
opcode of the group, then the rendered opcodes. -/
def hunkLines (a b : List String) (g : List Op) : List String :=
  match g with
  | [] => []
  | first :: _ =>
    let last := g.getLastD first
    ("@@ -" ++ _format_range_unified first.i1 last.i2 ++
      " +" ++ _format_range_unified first.j1 last.j2 ++ " @@\n") ::
    g.flatMap (renderOp a b)

/-- `wdiff(a, b, fromfile, tofile, n)` with the default line terminator:
nothing for equal inputs, otherwise the two file headers followed by the
hunks. -/
def wdiff (a b : List String) (fromfile tofile : String) (n : Nat) : List String :=
  match getGroupedOpcodes a b n with
  | [] => []
  | groups =>
    ("--- " ++ fromfile ++ "\n") :: ("+++ " ++ tofile ++ "\n") ::
    groups.flatMap (hunkLines a b)

/-- `FileDiff.__bool__`: the raw byte contents differ. -/
def fileDiffIsDifferent (received snapshot : List Nat) : Bool :=
  decide (received ≠ snapshot)

/-- `FileDiff.diff_lines` in the plain-text rendering model: decode both
files (binary diff on failure), word-diff the snapshot lines against the
received lines, strip trailing newlines from every emitted line. -/
def fileDiffLines (received snapshot : List Nat) (name : String) : List String :=
  match decodeText received, decodeText snapshot with
  | some receivedText, some snapshotText =>
    (wdiff (splitlines snapshotText) (splitlines receivedText)
      ("<snapshot>/" ++ name) ("<received>/" ++ name) 3).map rstripNL
  | _, _ =>
    if received.length ≠ snapshot.length then
      ["🚫 " ++ name ++ ": binary files sizes differs"]
    else
      ["🚫 " ++ name ++ ": binary files content differs"]

/-- On the binary path (either file undecodable), `diff_lines` is the
single size/content message line. -/
theorem fileDiffLines_binary_eq (received snapshot : List Nat) (name : String)
    (h : decodeText received = none ∨ decodeText snapshot = none) :
    fileDiffLines received snapshot name =
      [if received.length ≠ snapshot.length then
        "🚫 " ++ name ++ ": binary files sizes differs"
      else
        "🚫 " ++ name ++ ": binary files content differs"] := by
  unfold fileDiffLines
  rcases h with h | h
  · rw [h]
    cases decodeText snapshot <;> simp only <;> split <;> simp
  · rw [h]
    cases decodeText received <;> simp only <;> split <;> simp

/-- On the text path (both files decodable), `diff_lines` is the word diff
of the two line lists with trailing newlines stripped. -/
theorem fileDiffLines_text_eq (received snapshot : List Nat) (name : String)
    (rt st : String) (hr : decodeText received = some rt)
    (hs : decodeText snapshot = some st) :
    fileDiffLines received snapshot name =
      (wdiff (splitlines st) (splitlines rt)
        ("<snapshot>/" ++ name) ("<received>/" ++ name) 3).map rstripNL := by
  unfold fileDiffLines
  rw [hr, hs]

/-- C7: whenever at least one of the two files fails to decode as text,
`diff_lines` yields exactly one line — reporting a size difference when the
byte sizes differ and a content difference otherwise — built from the
display name only, never from the content bytes. -/
theorem binary_diff_single_line (received snapshot : List Nat) (name : String)
    (h : decodeText received = none ∨ decodeText snapshot = none) :
    fileDiffLines received snapshot name =
      [if received.length ≠ snapshot.length then
        "🚫 " ++ name ++ ": binary files sizes differs"
      else
        "🚫 " ++ name ++ ": binary files content differs"] :=
  fileDiffLines_binary_eq received snapshot name h

/-- Witness for C7: one undecodable byte against an empty file reports a
size difference in a single line. -/
theorem binary_diff_single_line_witness :
    fileDiffLines [255] [] "file.bin" = ["🚫 file.bin: binary files sizes differs"] := by
  rw [binary_diff_single_line [255] [] "file.bin" (Or.inl rfl)]
  simp

/-- C3 counterexample: at `a = ["x\n", "y\n"]`, `b = ["z\n"]` the single
hunk consists of one replace opcode with ranges of unequal length (2
against 1); `wdiff` renders it by zipping the ranges, so only one
removed/added pair appears, the line `y` of the longer range is omitted
from the output entirely, and no plain `-`/`+` full-line dump is emitted —
refuting the claimed fallback for unequal-length replace ranges. -/
theorem wdiff_unequal_replace_counterexample :
    getGroupedOpcodes (α := String) ["x\n", "y\n"] ["z\n"] 3
        = [[⟨.replace, 0, 2, 0, 1⟩]]
      ∧ wdiff ["x\n", "y\n"] ["z\n"] "f1" "f2" 3
        = ["--- f1\n", "+++ f2\n", "@@ -1,2 +1 @@\n", "- [-x-]\n", "+ \x7b+z+\x7d\n"]
      ∧ (wdiff ["x\n", "y\n"] ["z\n"] "f1" "f2" 3).all
          (fun line => !line.data.contains 'y') = true :=
  ⟨rfl, rfl, rfl⟩

/-- C3 amended: the `wdiff` hunk rendering of every replace opcode zips the
two line ranges, emitting exactly `min` of the two range lengths removed
lines (via `removed_line_wdiff`) followed by the same number of added lines
(via `added_line_wdiff`); when the ranges have equal length every line of
both ranges is rendered, and when they differ the excess lines of the
longer range are omitted — there is no plain-dump fallback. -/
theorem wdiff_replace_zips (a b : List String) (op : Op)
    (htag : op.tag = .replace) (hib : op.i2 ≤ a.length) (hjb : op.j2 ≤ b.length) :
    renderOp a b op
        = ((sliceL a op.i1 op.i2).zip (sliceL b op.j1 op.j2)).map
            (fun p => "- " ++ removed_line_wdiff p.1 p.2) ++
          ((sliceL a op.i1 op.i2).zip (sliceL b op.j1 op.j2)).map
            (fun p => "+ " ++ added_line_wdiff p.1 p.2)
      ∧ (renderOp a b op).length
          = 2 * min (op.i2 - op.i1) (op.j2 - op.j1)
      ∧ (op.i2 - op.i1 = op.j2 - op.j1 →
          (renderOp a b op).length = (op.i2 - op.i1) + (op.j2 - op.j1)) := by
  have hdef : renderOp a b op
      = ((sliceL a op.i1 op.i2).zip (sliceL b op.j1 op.j2)).map
          (fun p => "- " ++ removed_line_wdiff p.1 p.2) ++
        ((sliceL a op.i1 op.i2).zip (sliceL b op.j1 op.j2)).map
          (fun p => "+ " ++ added_line_wdiff p.1 p.2) := by
    unfold renderOp
    rw [htag]
  have hlen_a : (sliceL a op.i1 op.i2).length = op.i2 - op.i1 := by
    simp [sliceL]
    omega
  have hlen_b : (sliceL b op.j1 op.j2).length = op.j2 - op.j1 := by
    simp [sliceL]
    omega
  have hcount : (renderOp a b op).length
      = 2 * min (op.i2 - op.i1) (op.j2 - op.j1) := by
    rw [hdef]
    simp [List.length_zip, hlen_a, hlen_b]
    omega
  refine ⟨hdef, hcount, ?_⟩
  intro heq
  rw [hcount, ← heq]
  simp [Nat.min_self]
  omega

/-- Witness for the amended C3 at a concrete equal-length replace opcode:
both lines of each range are rendered. -/
theorem wdiff_replace_zips_witness :
    (renderOp ["x\n", "y\n"] ["u\n", "v\n"] ⟨.replace, 0, 2, 0, 2⟩).length = 2 + 2 :=
  ((wdiff_replace_zips ["x\n", "y\n"] ["u\n", "v\n"] ⟨.replace, 0, 2, 0, 2⟩
    rfl (by decide) (by decide)).2.2 rfl).trans rfl

/-! ## Correctness of the matcher model

The lemmas below establish what `getGroupedOpcodes` being empty says about
the input sequences: it is empty exactly when the sequences are equal.
This is the heart of the `diff_lines`-empty characterisation. -/

section SeqMatcherLemmas

variable {α : Type} [DecidableEq α]

/-- The elements of `a` starting at `i` and of `b` starting at `j` agree
for `k` steps (and stay in bounds on the `a` side). -/
def MatchAt (a b : List α) (i j k : Nat) : Prop :=
  ∀ t, t < k → i + t < a.length ∧ a[i + t]? = b[j + t]?

theorem matchAt_zero (a b : List α) (i j : Nat) : MatchAt a b i j 0 := by
  intro t ht
  omega

theorem matchAt_right_bound {a b : List α} {i j k : Nat} (h : MatchAt a b i j k)
    (t : Nat) (ht : t < k) : j + t < b.length := by
  obtain ⟨h1, h2⟩ := h t ht
  rw [List.getElem?_eq_getElem h1] at h2
  obtain ⟨hb, _⟩ := List.getElem?_eq_some.mp h2.symm
  exact hb

theorem matchAt_append {a b : List α} {i j k1 k2 : Nat}
    (h1 : MatchAt a b i j k1) (h2 : MatchAt a b (i + k1) (j + k1) k2) :
    MatchAt a b i j (k1 + k2) := by
  intro t ht
  by_cases hc : t < k1
  · exact h1 t hc
  · have h3 := h2 (t - k1) (by omega)
    constructor
    · have := h3.1; omega
    · have := h3.2
      have e1 : i + k1 + (t - k1) = i + t := by omega
      have e2 : j + k1 + (t - k1) = j + t := by omega
      rwa [e1, e2] at this

theorem runLen_le (a b : List α) (lim i j : Nat) : runLen a b lim i j ≤ lim := by
  induction lim generalizing i j with
  | zero => simp [runLen]
  | succ lim ih =>
    simp only [runLen]
    rcases ha : a[i]? with _ | x <;> rcases hb : b[j]? with _ | y <;> simp only
    · omega
    · omega
    · omega
    · by_cases hxy : x = y
      · simp only [if_pos hxy]
        have := ih (i + 1) (j + 1)
        omega
      · simp [hxy]

theorem runLen_matchAt (a b : List α) (lim i j : Nat) :
    MatchAt a b i j (runLen a b lim i j) := by
  induction lim generalizing i j with
  | zero =>
    simp only [runLen]
    exact matchAt_zero a b i j
  | succ lim ih =>
    simp only [runLen]
    rcases ha : a[i]? with _ | x <;> rcases hb : b[j]? with _ | y <;>
      simp only [matchAt_zero]
    by_cases hxy : x = y
    · simp only [if_pos hxy]
      intro t ht
      match t with
      | 0 =>
        obtain ⟨hbound, _⟩ := List.getElem?_eq_some.mp ha
        refine ⟨by omega, ?_⟩
        simp only [Nat.add_zero]
        rw [ha, hb, hxy]
      | t + 1 =>
        have h3 := ih (i + 1) (j + 1) t (by omega)
        refine ⟨by have := h3.1; omega, ?_⟩
        have := h3.2
        have e1 : i + 1 + t = i + (t + 1) := by omega
        have e2 : j + 1 + t = j + (t + 1) := by omega
        rwa [e1, e2] at this
    · simp [hxy, matchAt_zero]

/-- Specification carried by the `findLongestMatch` fold state. -/
def FlmOk (a b : List α) (alo ahi blo bhi : Nat) (m : Nat × Nat × Nat) : Prop :=
  alo ≤ m.1 ∧ blo ≤ m.2.1 ∧ m.1 + m.2.2 ≤ ahi ∧ m.2.1 + m.2.2 ≤ bhi ∧
    MatchAt a b m.1 m.2.1 m.2.2

theorem flmStep_ok {a b : List α} {alo ahi blo bhi : Nat} {best : Nat × Nat × Nat}
    {c : Nat × Nat} (hb : FlmOk a b alo ahi blo bhi best)
    (hc1 : alo ≤ c.1) (hc2 : blo ≤ c.2) :
    FlmOk a b alo ahi blo bhi (flmStep a b ahi bhi best c) := by
  unfold flmStep
  by_cases h : best.2.2 < runLen a b (min (ahi - c.1) (bhi - c.2)) c.1 c.2
  · rw [if_pos h]
    have hle := runLen_le a b (min (ahi - c.1) (bhi - c.2)) c.1 c.2
    unfold FlmOk
    dsimp only
    exact ⟨hc1, hc2, by omega, by omega, runLen_matchAt a b _ c.1 c.2⟩
  · rw [if_neg h]
    exact hb

theorem flm_fold_ok (a b : List α) (alo ahi blo bhi : Nat)
    (cands : List (Nat × Nat)) (best : Nat × Nat × Nat)
    (hb : FlmOk a b alo ahi blo bhi best)
    (hmem : ∀ c ∈ cands, alo ≤ c.1 ∧ blo ≤ c.2) :
    FlmOk a b alo ahi blo bhi (cands.foldl (flmStep a b ahi bhi) best) := by
  induction cands generalizing best with
  | nil => exact hb
  | cons c rest ih =>
    simp only [List.foldl_cons]
    have hc := hmem c (by simp)
    exact ih _ (flmStep_ok hb hc.1 hc.2) (fun d hd => hmem d (List.mem_cons_of_mem c hd))

theorem flm_ok (a b : List α) (alo ahi blo bhi : Nat)
    (h1 : alo ≤ ahi) (h2 : blo ≤ bhi) :
    FlmOk a b alo ahi blo bhi (findLongestMatch a b alo ahi blo bhi) := by
  unfold findLongestMatch
  apply flm_fold_ok
  · unfold FlmOk
    dsimp only
    exact ⟨le_refl alo, le_refl blo, by omega, by omega, matchAt_zero a b alo blo⟩
  · intro c hc
    unfold flmCandidates at hc
    simp only [List.mem_flatMap, List.mem_map, List.mem_range'_1] at hc
    obtain ⟨i, hi, j, hj, hcj⟩ := hc
    subst hcj
    exact ⟨hi.1, hj.1⟩

/-- The blocks progress from position `(i, j)`, each matching within the
window bounded by `(hi, hj)`. -/
def ChainedW (a b : List α) (hi hj : Nat) : Nat → Nat → List (Nat × Nat × Nat) → Prop
  | _, _, [] => True
  | i, j, (ai, bj, k) :: rest =>
    i ≤ ai ∧ j ≤ bj ∧ ai + k ≤ hi ∧ bj + k ≤ hj ∧ MatchAt a b ai bj k ∧
      ChainedW a b hi hj (ai + k) (bj + k) rest

theorem chainedW_weaken {a b : List α} {hi hj i j i' j' : Nat}
    {l : List (Nat × Nat × Nat)} (h : ChainedW a b hi hj i' j' l)
    (hii : i ≤ i') (hjj : j ≤ j') : ChainedW a b hi hj i j l := by
  match l with
  | [] => trivial
  | (ai, bj, k) :: rest =>
    obtain ⟨h1, h2, h3, h4, h5, h6⟩ := h
    exact ⟨by omega, by omega, h3, h4, h5, h6⟩

theorem chainedW_widen {a b : List α} {hi hj hi' hj' i j : Nat}
    {l : List (Nat × Nat × Nat)} (h : ChainedW a b hi hj i j l)
    (hii : hi ≤ hi') (hjj : hj ≤ hj') : ChainedW a b hi' hj' i j l := by
  induction l generalizing i j with
  | nil => trivial
  | cons blk rest ih =>
    obtain ⟨ai, bj, k⟩ := blk
    obtain ⟨h1, h2, h3, h4, h5, h6⟩ := h
    exact ⟨h1, h2, by omega, by omega, h5, ih h6⟩

theorem chainedW_append {a b : List α} {hi hj m1 m2 : Nat}
    {l1 l2 : List (Nat × Nat × Nat)} :
    ∀ {i j : Nat}, ChainedW a b m1 m2 i j l1 → ChainedW a b hi hj m1 m2 l2 →
      m1 ≤ hi → m2 ≤ hj → i ≤ m1 → j ≤ m2 →
      ChainedW a b hi hj i j (l1 ++ l2) := by
  induction l1 with
  | nil =>
    intro i j _ h2 _ _ hi1 hj1
    simpa using chainedW_weaken h2 hi1 hj1
  | cons blk rest ih =>
    intro i j h1 h2 hm1 hm2 _ _
    obtain ⟨ai, bj, k⟩ := blk
    obtain ⟨g1, g2, g3, g4, g5, g6⟩ := h1
    refine ⟨g1, g2, by omega, by omega, g5, ?_⟩
    exact ih g6 h2 hm1 hm2 (by omega) (by omega)

theorem matchingBlocksF_chained (a b : List α) (fuel : Nat) :
    ∀ alo ahi blo bhi, alo ≤ ahi → blo ≤ bhi →
      ChainedW a b ahi bhi alo blo (matchingBlocksF a b fuel alo ahi blo bhi) := by
  induction fuel with
  | zero =>
    intro alo ahi blo bhi _ _
    trivial
  | succ fuel ih =>
    intro alo ahi blo bhi ha hb
    simp only [matchingBlocksF]
    have hok := flm_ok a b alo ahi blo bhi ha hb
    obtain ⟨o1, o2, o3, o4, o5⟩ := hok
    set m := findLongestMatch a b alo ahi blo bhi with hm
    by_cases hk : m.2.2 = 0
    · rw [if_pos hk]
      trivial
    · rw [if_neg hk]
      have hcenter : ChainedW a b ahi bhi m.1 m.2.1
          (m ::
            (if m.1 + m.2.2 < ahi ∧ m.2.1 + m.2.2 < bhi then
              matchingBlocksF a b fuel (m.1 + m.2.2) ahi (m.2.1 + m.2.2) bhi
            else [])) := by
        have hrest : ChainedW a b ahi bhi (m.1 + m.2.2) (m.2.1 + m.2.2)
            (if m.1 + m.2.2 < ahi ∧ m.2.1 + m.2.2 < bhi then
              matchingBlocksF a b fuel (m.1 + m.2.2) ahi (m.2.1 + m.2.2) bhi
            else []) := by
          by_cases hg : m.1 + m.2.2 < ahi ∧ m.2.1 + m.2.2 < bhi
          · rw [if_pos hg]
            exact ih (m.1 + m.2.2) ahi (m.2.1 + m.2.2) bhi (by omega) (by omega)
          · rw [if_neg hg]
            trivial
        show ChainedW a b ahi bhi m.1 m.2.1 ((m.1, m.2.1, m.2.2) :: _)
        exact ⟨le_refl _, le_refl _, o3, o4, o5, hrest⟩
      by_cases hg : alo < m.1 ∧ blo < m.2.1
      · rw [if_pos hg]
        have hleft : ChainedW a b m.1 m.2.1 alo blo
            (matchingBlocksF a b fuel alo m.1 blo m.2.1) :=
          ih alo m.1 blo m.2.1 (by omega) (by omega)
        exact chainedW_append hleft hcenter (by omega) (by omega) (by omega) (by omega)
      · rw [if_neg hg]
        simp only [List.nil_append]
        exact chainedW_weaken hcenter o1 o2

theorem nonAdjacent_chained {a b : List α} {hi hj : Nat} :
    ∀ (l : List (Nat × Nat × Nat)) (a1 b1 k1 i j : Nat),
      i ≤ a1 → j ≤ b1 → a1 + k1 ≤ hi → b1 + k1 ≤ hj → MatchAt a b a1 b1 k1 →
      ChainedW a b hi hj (a1 + k1) (b1 + k1) l →
      ChainedW a b hi hj i j (nonAdjacent (a1, b1, k1) l) := by
  intro l
  induction l with
  | nil =>
    intro a1 b1 k1 i j h1 h2 h3 h4 h5 _
    simp only [nonAdjacent]
    by_cases hk : k1 ≠ 0
    · rw [if_pos hk]
      exact ⟨h1, h2, h3, h4, h5, trivial⟩
    · rw [if_neg hk]
      trivial
  | cons blk rest ih =>
    intro a1 b1 k1 i j h1 h2 h3 h4 h5 hch
    obtain ⟨ai, bj, k2⟩ := blk
    obtain ⟨g1, g2, g3, g4, g5, g6⟩ := hch
    simp only [nonAdjacent]
    by_cases hadj : a1 + k1 = ai ∧ b1 + k1 = bj
    · rw [if_pos hadj]
      apply ih (a1) (b1) (k1 + k2) i j h1 h2 (by omega) (by omega)
      · apply matchAt_append h5
        rw [hadj.1, hadj.2]
        exact g5
      · have e1 : a1 + (k1 + k2) = ai + k2 := by omega
        have e2 : b1 + (k1 + k2) = bj + k2 := by omega
        rw [e1, e2]
        exact g6
    · rw [if_neg hadj]
      have hrest : ChainedW a b hi hj (a1 + k1) (b1 + k1)
          (nonAdjacent (ai, bj, k2) rest) :=
        ih ai bj k2 (a1 + k1) (b1 + k1) g1 g2 g3 g4 g5 g6
      by_cases hk : k1 ≠ 0
      · rw [if_pos hk]
        exact ⟨h1, h2, h3, h4, h5, hrest⟩
      · rw [if_neg hk]
        simp only [List.nil_append]
        exact chainedW_weaken hrest (by omega) (by omega)

/-- The full matching block list (terminator included) is a chain from
`(0, 0)` within `(a.length, b.length)`. -/
theorem getMatchingBlocks_chained (a b : List α) :
    ChainedW a b a.length b.length 0 0 (getMatchingBlocks a b) := by
  unfold getMatchingBlocks
  have hraw := matchingBlocksF_chained a b (a.length + b.length + 1)
    0 a.length 0 b.length (by omega) (by omega)
  have hmerged : ChainedW a b a.length b.length 0 0
      (nonAdjacent (0, 0, 0)
        (matchingBlocksF a b (a.length + b.length + 1) 0 a.length 0 b.length)) := by
    apply nonAdjacent_chained _ 0 0 0 0 0 (by omega) (by omega) (by omega) (by omega)
      (matchAt_zero a b 0 0)
    simpa using hraw
  have hterm : ChainedW a b a.length b.length a.length b.length
      [(a.length, b.length, 0)] :=
    ⟨le_refl _, le_refl _, by omega, by omega, matchAt_zero a b _ _, trivial⟩
  exact chainedW_append hmerged hterm (le_refl _) (le_refl _) (by omega) (by omega)

theorem matchAt_take {a b : List α} {i j k : Nat} (h : MatchAt a b i j k) :
    (a.drop i).take k = (b.drop j).take k := by
  apply List.ext_getElem?
  intro t
  by_cases ht : t < k
  · rw [List.getElem?_take_of_lt ht, List.getElem?_take_of_lt ht,
      List.getElem?_drop, List.getElem?_drop]
    exact (h t ht).2
  · rw [List.getElem?_eq_none (by simp [List.length_take]; omega),
      List.getElem?_eq_none (by simp [List.length_take]; omega)]

/-- If every opcode generated from a chained block list ending at the
terminator is an equal opcode, the two suffixes from the current position
coincide. -/
theorem opcodes_all_equal_drop {a b : List α} :
    ∀ (blocks : List (Nat × Nat × Nat)) (i j : Nat),
      ChainedW a b a.length b.length i j blocks →
      blocks.getLast? = some (a.length, b.length, 0) →
      (∀ op ∈ opcodesGo i j blocks, op.tag = Tag.equal) →
      a.drop i = b.drop j := by
  intro blocks
  induction blocks with
  | nil =>
    intro i j _ hlast _
    simp at hlast
  | cons blk rest ih =>
    intro i j hch hlast hall
    obtain ⟨ai, bj, k⟩ := blk
    obtain ⟨g1, g2, g3, g4, g5, g6⟩ := hch
    have hgap : ¬(i < ai) ∧ ¬(j < bj) := by
      by_contra hcon
      rw [Decidable.not_and_iff_or_not, Decidable.not_not, Decidable.not_not] at hcon
      have : ∃ op ∈ opcodesGo i j ((ai, bj, k) :: rest), op.tag ≠ Tag.equal := by
        simp only [opcodesGo]
        rcases hcon with h1 | h1
        · by_cases h2 : j < bj
          · exact ⟨⟨.replace, i, ai, j, bj⟩, by rw [if_pos ⟨h1, h2⟩]; simp, by simp⟩
          · refine ⟨⟨.delete, i, ai, j, bj⟩, ?_, by simp⟩
            rw [if_neg (by tauto), if_pos h1]
            simp
        · by_cases h2 : i < ai
          · exact ⟨⟨.replace, i, ai, j, bj⟩, by rw [if_pos ⟨h2, h1⟩]; simp, by simp⟩
          · refine ⟨⟨.insert, i, ai, j, bj⟩, ?_, by simp⟩
            rw [if_neg (by tauto), if_neg h2, if_pos h1]
            simp
      obtain ⟨op, hmem, hne⟩ := this
      exact hne (hall op hmem)
    have hia : i = ai := by omega
    have hjb : j = bj := by omega
    subst hia
    subst hjb
    match rest with
    | [] =>
      simp only [List.getLast?_singleton, Option.some.injEq, Prod.mk.injEq] at hlast
      obtain ⟨e1, e2, _⟩ := hlast
      subst e1
      subst e2
      rw [List.drop_length, List.drop_length]
    | blk2 :: rest2 =>
      have hunfold : opcodesGo i j ((i, j, k) :: blk2 :: rest2) =
          (if k ≠ 0 then [⟨Tag.equal, i, i + k, j, j + k⟩] else []) ++
            opcodesGo (i + k) (j + k) (blk2 :: rest2) := by
        conv_lhs => rw [opcodesGo]
        rw [if_neg (by omega), if_neg (by omega), if_neg (by omega)]
        rw [List.nil_append]
      have hrest : a.drop (i + k) = b.drop (j + k) := by
        apply ih (i + k) (j + k) g6
        · simpa using hlast
        · intro op hop
          apply hall
          rw [hunfold]
          exact List.mem_append_right _ hop
      have htake := matchAt_take g5
      calc a.drop i = (a.drop i).take k ++ (a.drop i).drop k :=
            (List.take_append_drop k (a.drop i)).symm
        _ = (b.drop j).take k ++ (b.drop j).drop k := by
            rw [htake, List.drop_drop, List.drop_drop, hrest]
        _ = b.drop j := List.take_append_drop k (b.drop j)

/-- An empty grouped output means the whole (possibly trimmed) opcode
stream was at most a single equal opcode. -/
theorem groupLoop_eq_nil {n : Nat} :
    ∀ (codes group : List Op), groupLoop n group codes = [] →
      group ++ codes = [] ∨ ∃ op, group ++ codes = [op] ∧ op.tag = Tag.equal := by
  intro codes
  induction codes with
  | nil =>
    intro group h
    match group with
    | [] => left; rfl
    | [op] =>
      by_cases he : op.tag = Tag.equal
      · right
        exact ⟨op, rfl, he⟩
      · simp only [groupLoop, if_neg he] at h
        simp at h
    | op1 :: op2 :: rest =>
      simp only [groupLoop] at h
      simp at h
  | cons op rest ih =>
    intro group h
    simp only [groupLoop] at h
    by_cases hsplit : op.tag = Tag.equal ∧ 2 * n < op.i2 - op.i1
    · rw [if_pos hsplit] at h
      simp at h
    · rw [if_neg hsplit] at h
      have := ih (group ++ [op]) h
      rwa [List.append_assoc, List.singleton_append] at this

theorem trimHead_map_tag (n : Nat) (l : List Op) :
    (trimHead n l).map Op.tag = l.map Op.tag := by
  match l with
  | [] => rfl
  | op :: rest =>
    simp only [trimHead]
    by_cases he : op.tag = Tag.equal
    · rw [if_pos he]
      simp [he]
    · rw [if_neg he]

theorem trimLast_map_tag (n : Nat) (l : List Op) :
    (trimLast n l).map Op.tag = l.map Op.tag := by
  induction l with
  | nil => rfl
  | cons op rest ih =>
    match rest with
    | [] =>
      simp only [trimLast]
      by_cases he : op.tag = Tag.equal
      · rw [if_pos he]
        simp [he]
      · rw [if_neg he]
    | op2 :: rest2 =>
      simp only [trimLast, List.map_cons] at ih ⊢
      rw [ih]

/-- An empty grouped output means the raw opcode stream was empty or a
single equal opcode. -/
theorem grouped_nil_small {a b : List α} {n : Nat}
    (h : getGroupedOpcodes a b n = []) :
    getOpcodes a b = [] ∨ ∃ op, getOpcodes a b = [op] ∧ op.tag = Tag.equal := by
  by_cases hc : getOpcodes a b = []
  · left
    exact hc
  · right
    unfold getGroupedOpcodes at h
    simp only [if_neg hc] at h
    have h2 := groupLoop_eq_nil _ _ h
    simp only [List.nil_append] at h2
    have htags : (trimLast n (trimHead n (getOpcodes a b))).map Op.tag
        = (getOpcodes a b).map Op.tag := by
      rw [trimLast_map_tag, trimHead_map_tag]
    rcases h2 with h2 | ⟨op, h2, h3⟩
    · rw [h2] at htags
      simp only [List.map_nil] at htags
      have := List.map_eq_nil_iff.mp htags.symm
      exact absurd this hc
    · rw [h2] at htags
      match hx : getOpcodes a b with
      | [] => exact absurd hx hc
      | [op0] =>
        rw [hx] at htags
        simp only [List.map_cons, List.map_nil, List.cons.injEq] at htags
        exact ⟨op0, rfl, by rw [← htags.1]; exact h3⟩
      | o1 :: o2 :: t =>
        rw [hx] at htags
        simp at htags

theorem grouped_nil_imp_eq {a b : List α} {n : Nat}
    (h : getGroupedOpcodes a b n = []) : a = b := by
  have hsmall := grouped_nil_small h
  have hch := getMatchingBlocks_chained a b
  have hlast : (getMatchingBlocks a b).getLast? = some (a.length, b.length, 0) := by
    unfold getMatchingBlocks
    rw [List.getLast?_concat]
  have hall : ∀ op ∈ getOpcodes a b, op.tag = Tag.equal := by
    rcases hsmall with h0 | ⟨op, h1, h2⟩
    · rw [h0]
      simp
    · rw [h1]
      intro op' hop'
      rw [List.mem_singleton.mp hop']
      exact h2
  have hdrop := opcodes_all_equal_drop (getMatchingBlocks a b) 0 0 hch hlast hall
  simpa using hdrop

theorem runLen_self (a : List α) (lim : Nat) :
    ∀ i, runLen a a lim i i = min lim (a.length - i) := by
  induction lim with
  | zero => intro i; simp [runLen]
  | succ lim ih =>
    intro i
    simp only [runLen]
    rcases ha : a[i]? with _ | x
    · simp only
      rw [List.getElem?_eq_none_iff] at ha
      omega
    · dsimp only
      rw [if_pos rfl, ih (i + 1)]
      obtain ⟨hb, _⟩ := List.getElem?_eq_some.mp ha
      omega

theorem flm_fold_no_update (a b : List α) (ahi bhi : Nat)
    (cands : List (Nat × Nat)) (best : Nat × Nat × Nat)
    (h : ∀ c ∈ cands, runLen a b (min (ahi - c.1) (bhi - c.2)) c.1 c.2 ≤ best.2.2) :
    cands.foldl (flmStep a b ahi bhi) best = best := by
  induction cands with
  | nil => rfl
  | cons c rest ih =>
    simp only [List.foldl_cons]
    have hc := h c (by simp)
    have hstep : flmStep a b ahi bhi best c = best := by
      unfold flmStep
      rw [if_neg (by omega)]
    rw [hstep]
    exact ih (fun d hd => h d (List.mem_cons_of_mem c hd))

theorem flm_self (a : List α) :
    findLongestMatch a a 0 a.length 0 a.length = (0, 0, a.length) := by
  unfold findLongestMatch
  match hl : a.length with
  | 0 =>
    have hc : flmCandidates 0 0 0 0 = [] := by
      simp [flmCandidates]
    rw [hc]
    rfl
  | la + 1 =>
    have hrest : flmCandidates 0 (la + 1) 0 (la + 1)
        = (0, 0) :: ((List.range' 1 la).map (fun j => (0, j)) ++
            (List.range' 1 la).flatMap
              (fun i => (0 :: List.range' 1 la).map (fun j => (i, j)))) := by
      unfold flmCandidates
      rw [Nat.sub_zero, List.range'_succ]
      simp only [Nat.zero_add]
      rw [List.flatMap_cons, List.map_cons, List.cons_append]
    rw [hrest]
    simp only [List.foldl_cons]
    have hstep : flmStep a a (la + 1) (la + 1) (0, 0, 0) (0, 0) = (0, 0, la + 1) := by
      unfold flmStep
      dsimp only
      rw [Nat.sub_zero, Nat.min_self, runLen_self a (la + 1) 0, hl]
      rw [if_pos (by omega)]
      congr 2
      omega
    rw [hstep]
    apply flm_fold_no_update
    intro c _
    have h1 := runLen_le a a (min ((la + 1) - c.1) ((la + 1) - c.2)) c.1 c.2
    dsimp only
    omega

theorem matchingBlocksF_self (a : List α) (fuel : Nat) :
    matchingBlocksF a a (fuel + 1) 0 a.length 0 a.length =
      if a.length = 0 then [] else [(0, 0, a.length)] := by
  simp only [matchingBlocksF]
  rw [flm_self a]
  by_cases hla : a.length = 0
  · rw [if_pos hla, if_pos (show (0, 0, a.length).2.2 = 0 from hla)]
  · rw [if_neg hla, if_neg (show ¬(0, 0, a.length).2.2 = 0 from hla),
      if_neg (by dsimp only; omega), if_neg (by dsimp only; omega)]
    simp

theorem getMatchingBlocks_self (a : List α) :
    getMatchingBlocks a a =
      if a.length = 0 then [(0, 0, 0)]
      else [(0, 0, a.length), (a.length, a.length, 0)] := by
  unfold getMatchingBlocks
  rw [show a.length + a.length + 1 = (a.length + a.length) + 1 from rfl,
    matchingBlocksF_self]
  by_cases hla : a.length = 0
  · rw [if_pos hla, if_pos hla]
    simp [nonAdjacent, hla]
  · rw [if_neg hla, if_neg hla]
    simp only [nonAdjacent]
    rw [if_pos ⟨trivial, trivial⟩, if_pos (by omega)]
    simp

theorem getOpcodes_self (a : List α) :
    getOpcodes a a =
      if a.length = 0 then [] else [⟨Tag.equal, 0, a.length, 0, a.length⟩] := by
  unfold getOpcodes
  rw [getMatchingBlocks_self]
  by_cases hla : a.length = 0
  · rw [if_pos hla, if_pos hla]
    simp only [opcodesGo]
    rw [if_neg (by omega), if_neg (by omega), if_neg (by omega), if_neg (by omega)]
    rfl
  · rw [if_neg hla, if_neg hla]
    simp only [opcodesGo]
    rw [if_neg (by omega), if_neg (by omega), if_neg (by omega), if_pos hla]
    rw [if_neg (by omega), if_neg (by omega), if_neg (by omega), if_neg (by omega)]
    simp

theorem trimHead_single_equal (n : Nat) (op : Op) (he : op.tag = Tag.equal) :
    trimHead n [op]
      = [⟨Tag.equal, max op.i1 (op.i2 - n), op.i2, max op.j1 (op.j2 - n), op.j2⟩] := by
  simp only [trimHead]
  rw [if_pos he]

theorem trimLast_single_equal (n : Nat) (op : Op) (he : op.tag = Tag.equal) :
    trimLast n [op]
      = [⟨Tag.equal, op.i1, min op.i2 (op.i1 + n), op.j1, min op.j2 (op.j1 + n)⟩] := by
  simp only [trimLast]
  rw [if_pos he]

theorem groupLoop_single_equal (n : Nat) (op : Op) (he : op.tag = Tag.equal)
    (harith : ¬(2 * n < op.i2 - op.i1)) : groupLoop n [] [op] = [] := by
  simp only [groupLoop]
  rw [if_neg (fun hcon => absurd hcon.2 harith)]
  simp only [List.nil_append, groupLoop]
  rw [if_pos he]

theorem eq_imp_grouped_nil (a b : List α) (n : Nat) (h : a = b) :
    getGroupedOpcodes a b n = [] := by
  subst h
  unfold getGroupedOpcodes
  rw [getOpcodes_self]
  by_cases hla : a.length = 0
  · rw [if_pos hla, if_pos rfl, trimHead_single_equal n _ rfl,
      trimLast_single_equal n _ rfl]
    apply groupLoop_single_equal n _ rfl
    dsimp only
    omega
  · rw [if_neg hla, if_neg (by simp), trimHead_single_equal n _ rfl,
      trimLast_single_equal n _ rfl]
    apply groupLoop_single_equal n _ rfl
    dsimp only
    omega

theorem grouped_nil_iff (a b : List α) (n : Nat) :
    getGroupedOpcodes a b n = [] ↔ a = b :=
  ⟨grouped_nil_imp_eq, fun h => eq_imp_grouped_nil a b n h⟩

end SeqMatcherLemmas

/-- The rendered word diff is empty exactly when the two line sequences are
equal. -/
theorem wdiff_nil_iff (a b : List String) (fromfile tofile : String) (n : Nat) :
    wdiff a b fromfile tofile n = [] ↔ a = b := by
  constructor
  · intro h
    unfold wdiff at h
    match hg : getGroupedOpcodes a b n with
    | [] => exact grouped_nil_imp_eq hg
    | g :: gs =>
      rw [hg] at h
      simp at h
  · intro h
    unfold wdiff
    rw [eq_imp_grouped_nil a b n h]

/-- C5 counterexample: two byte-identical undecodable files pass the
identity test, yet `diff_lines` yields one line (the binary content
message) — refuting "diff_lines yields an empty sequence iff the identity
test is true". -/
theorem identical_binary_counterexample :
    fileDiffIsDifferent [255] [255] = false
      ∧ fileDiffLines [255] [255] "f" = ["🚫 f: binary files content differs"] :=
  ⟨rfl, rfl⟩

/-- C5 amended: the identity test is true exactly when the two files' byte
contents are equal, and `diff_lines` is empty exactly when the files are
byte-identical AND decodable as text; in particular non-identical files
always produce at least one line, but identical binary files also produce
one line. -/
theorem file_identity_diff_lines (received snapshot : List Nat) (name : String) :
    (fileDiffIsDifferent received snapshot = false ↔ received = snapshot)
      ∧ (fileDiffLines received snapshot name = []
          ↔ received = snapshot ∧ (decodeText received).isSome = true) := by
  refine ⟨by simp [fileDiffIsDifferent], ?_⟩
  rcases hr : decodeText received with _ | rt
  · rw [fileDiffLines_binary_eq received snapshot name (Or.inl hr)]
    constructor
    · intro h
      split at h <;> simp at h
    · rintro ⟨_, hsome⟩
      simp at hsome
  · rcases hs : decodeText snapshot with _ | st
    · rw [fileDiffLines_binary_eq received snapshot name (Or.inr hs)]
      constructor
      · intro h
        split at h <;> simp at h
      · rintro ⟨heq, _⟩
        subst heq
        rw [hr] at hs
        simp at hs
    · rw [fileDiffLines_text_eq received snapshot name rt st hr hs,
        List.map_eq_nil_iff, wdiff_nil_iff]
      constructor
      · intro h
        have hst : st = rt := splitlines_injective st rt h
        have heq : received = snapshot :=
          decodeText_injective received snapshot rt hr (by rw [hs, hst])
        exact ⟨heq, rfl⟩
      · rintro ⟨heq, _⟩
        subst heq
        rw [hr] at hs
        injection hs with hh
        rw [hh]

/-! ## Filesystem model and the snapshot store

A directory tree: regular files hold byte contents, directories hold named
entries (a real directory listing never repeats a name; lemmas that need
this carry an explicit no-duplicate hypothesis).  Paths are part lists.
The entry list is its own inductive (`FsEntries`) so that all recursions
stay structural and kernel reducible. -/

mutual

inductive FsEntry where
  | file (content : List Nat)
  | dir (entries : FsEntries)

inductive FsEntries where
  | nil
  | cons (name : String) (entry : FsEntry) (rest : FsEntries)

end

mutual

/-- Structural size of an entry (used as recursion fuel). -/
def sizeE : FsEntry → Nat
  | .file _ => 1
  | .dir es => 1 + sizeL es

/-- Structural size of an entry list. -/
def sizeL : FsEntries → Nat
  | .nil => 1
  | .cons _ e rest => 1 + sizeE e + sizeL rest

end

/-- Directory entry lookup by name (first match; real listings have unique
names). -/
def lookupE : FsEntries → String → Option FsEntry
  | .nil, _ => none
  | .cons m e rest, nm => if m = nm then some e else lookupE rest nm

/-- The names of a directory listing, in listing order (`os.listdir`). -/
def namesOf : FsEntries → List String
  | .nil => []
  | .cons m _ rest => m :: namesOf rest

theorem lookupE_size : ∀ (es : FsEntries) (nm : String) (e : FsEntry),
    lookupE es nm = some e → sizeE e < sizeL es
  | .nil, nm, e, h => by simp [lookupE] at h
  | .cons m e0 r, nm, e, h => by
    simp only [lookupE] at h
    by_cases hm : m = nm
    · rw [if_pos hm] at h
      injection h with h
      subst h
      simp only [sizeL]
      omega
    · rw [if_neg hm] at h
      have := lookupE_size r nm e h
      simp only [sizeL]
      omega

theorem lookupE_isSome_of_mem_names : ∀ (es : FsEntries) (nm : String),
    nm ∈ namesOf es → ∃ e, lookupE es nm = some e
  | .nil, nm, h => by simp [namesOf] at h
  | .cons m e0 r, nm, h => by
    simp only [namesOf, List.mem_cons] at h
    simp only [lookupE]
    by_cases hm : m = nm
    · exact ⟨e0, if_pos hm⟩
    · rw [if_neg hm]
      exact lookupE_isSome_of_mem_names r nm (h.resolve_left (fun hh => hm hh.symm))

/-- Resolve a path from an entry. -/
def getPath : FsEntry → List String → Option FsEntry
  | e, [] => some e
  | .file _, _ :: _ => none
  | .dir es, nm :: rest =>
    match lookupE es nm with
    | some e => getPath e rest
    | none => none

theorem getPath_append (e : FsEntry) (p q : List String) :
    getPath e (p ++ q) = (getPath e p).bind (fun e' => getPath e' q) := by
  induction p generalizing e with
  | nil => simp [getPath]
  | cons nm rest ih =>
    match e with
    | .file c => rfl
    | .dir es =>
      show getPath (.dir es) (nm :: (rest ++ q)) = _
      simp only [getPath]
      match lookupE es nm with
      | some e' => exact ih e'
      | none => rfl

/-- Remove the entry with the given name (`os.unlink` / `shutil.rmtree`
on the final path component). -/
def removeChild : FsEntries → String → FsEntries
  | .nil, _ => .nil
  | .cons m e rest, nm => if m = nm then rest else .cons m e (removeChild rest nm)

/-- Replace the entry with name `nm` (keeping its position). -/
def updateChild : FsEntries → String → FsEntry → FsEntries
  | .nil, _, _ => .nil
  | .cons m e0 rest, nm, e =>
    if m = nm then .cons nm e rest else .cons m e0 (updateChild rest nm e)

/-- Create or overwrite the entry with name `nm` (`shutil.copy` /
`Path.write_text` semantics). -/
def upsert : FsEntries → String → FsEntry → FsEntries
  | .nil, nm, e => .cons nm e .nil
  | .cons m e0 rest, nm, e =>
    if m = nm then .cons nm e rest else .cons m e0 (upsert rest nm e)

/-- Append a fresh entry at the end of the listing (`mkdir` of a new
name). -/
def appendE : FsEntries → String → FsEntry → FsEntries
  | .nil, nm, e => .cons nm e .nil
  | .cons m e0 rest, nm, e => .cons m e0 (appendE rest nm e)

/-- Remove the entry at a (non-empty) path. -/
def removePath : FsEntry → List String → FsEntry
  | e, [] => e
  | .file c, _ :: _ => .file c
  | .dir es, [nm] => .dir (removeChild es nm)
  | .dir es, nm :: rest1 :: rest =>
    match lookupE es nm with
    | some child => .dir (updateChild es nm (removePath child (rest1 :: rest)))
    | none => .dir es

/-- `PathSnapshotExtension.delete_snapshots` (syrupy/__init__.py:99-107):
`if path.is_dir(): shutil.rmtree(path) else: path.unlink()` — `rmtree`
removes the whole subtree, `unlink` the single file, and `unlink` on a
missing path raises FileNotFoundError. -/
def delete_snapshots (fs : FsEntry) (location : List String) : Except String FsEntry :=
  match getPath fs location with
  | some (.dir _) => .ok (removePath fs location)
  | some (.file _) => .ok (removePath fs location)
  | none => .error "FileNotFoundError"

/-- `Path.mkdir(parents=True)` (no `exist_ok`): create the directory,
creating missing parents, failing when the final directory already exists
or a component is a regular file. -/
def mkdirParents : FsEntry → List String → Except String FsEntry
  | _, [] => .error "FileExistsError"
  | .file _, _ :: _ => .error "NotADirectoryError"
  | .dir es, [nm] =>
    match lookupE es nm with
    | some _ => .error "FileExistsError"
    | none => .ok (.dir (appendE es nm (.dir .nil)))
  | .dir es, nm :: rest1 :: rest =>
    match lookupE es nm with
    | some (.file _) => .error "NotADirectoryError"
    | some (.dir child) =>
      (mkdirParents (.dir child) (rest1 :: rest)).map
        (fun e' => .dir (updateChild es nm e'))
    | none =>
      (mkdirParents (.dir .nil) (rest1 :: rest)).map
        (fun e' => .dir (appendE es nm e'))

/-- `os.makedirs(path, exist_ok=True)` as `shutil.copytree` calls it on
the target: create missing directories along the path, succeed on existing
ones, fail when a component is a regular file. -/
def makedirs : FsEntry → List String → Except String FsEntry
  | .dir es, [] => .ok (.dir es)
  | .file _, _ => .error "FileExistsError"
  | .dir es, nm :: rest =>
    match lookupE es nm with
    | some child => (makedirs child rest).map (fun e' => .dir (updateChild es nm e'))
    | none => (makedirs (.dir .nil) rest).map (fun e' => .dir (appendE es nm e'))

/-- Write an entry under the directory at the given path (parents are
assumed to exist, as they do after `mkdir`/`makedirs`); an existing entry
of the same name is overwritten, as `shutil.copy` does. -/
def putAt : FsEntry → List String → String → FsEntry → FsEntry
  | .dir es, [], nm, e => .dir (upsert es nm e)
  | .dir es, p :: rest, nm, e =>
    (match lookupE es p with
    | some child => .dir (updateChild es p (putAt child rest nm e))
    | none => .dir es)
  | .file c, _, _, _ => .file c

/-- `GITKEEPER` (syrupy/__init__.py:36): reserved marker file name for
stored empty directories. -/
def GITKEEPER : String := "syrupy.gitkeep"

def mapEntries (g : FsEntry → FsEntry) : FsEntries → FsEntries
  | .nil => .nil
  | .cons m e rest => .cons m (g e) (mapEntries g rest)

/-- Net effect on a fresh destination of
`shutil.copytree(src, target, ignore=ignore, dirs_exist_ok=True)` followed
by the marker loop of `_write_snapshot_collection`: the `ignore` callback
collects every source directory whose listing is empty, and a zero-byte
`GITKEEPER` file is then written inside the corresponding destination
directory.  Fuel is structural (one unit per directory level); the wrapper
passes a size based fuel, which always suffices. -/
def writeEntryF : Nat → FsEntry → FsEntry
  | 0, e => e
  | _ + 1, .file c => .file c
  | _ + 1, .dir .nil => .dir (.cons GITKEEPER (.file []) .nil)
  | f + 1, .dir (.cons m e rest) => .dir (mapEntries (writeEntryF f) (.cons m e rest))

/-- The destination listing produced for a directory snapshot with source
entries `srcEs`. -/
def writeDirEntries (srcEs : FsEntries) : FsEntries :=
  match writeEntryF (sizeL srcEs + 1) (.dir srcEs) with
  | .dir es => es
  | .file _ => .nil

/-- `PathSnapshotExtension._write_snapshot_collection`
(syrupy/__init__.py:123-146): takes the FIRST snapshot of the collection
(`list(..._snapshots.values())[0]`, IndexError when empty); for a directory
`data` it copytrees into `location/name` (parents created by `makedirs`
with `exist_ok`) and writes the markers; for a file `data` it runs
`target.parent.mkdir(parents=True)` — which fails with FileExistsError
when `location` already exists — then copies the file to
`location/name`. -/
def _write_snapshot_collection (fs : FsEntry) (location : List String)
    (snapshots : List (String × FsEntry)) : Except String FsEntry :=
  match snapshots with
  | [] => .error "IndexError"
  | (nm, .dir srcEs) :: _ =>
    (makedirs fs (location ++ [nm])).map (fun fs' =>
      putAt fs' location nm (.dir (writeDirEntries srcEs)))
  | (nm, .file c) :: _ =>
    (mkdirParents fs location).map (fun fs' => putAt fs' location nm (.file c))

/-- C10: the write operation copies exactly the first snapshot of the
collection — the result is independent of every other snapshot in the
collection — and a write of an empty collection fails (IndexError on
`list(...)[0]`) rather than being a no-op. -/
theorem write_collection_first_only (fs : FsEntry) (location : List String)
    (nm : String) (data : FsEntry) (rest : List (String × FsEntry)) :
    _write_snapshot_collection fs location ((nm, data) :: rest)
        = _write_snapshot_collection fs location [(nm, data)]
      ∧ _write_snapshot_collection fs location []
        = .error "IndexError" := by
  constructor
  · cases data <;> rfl
  · rfl

/-- C6 (failing input): writing the same single-file snapshot twice to the
same initially-empty destination does NOT succeed both times: the first
write succeeds, but the second fails with FileExistsError because
`target.parent.mkdir(parents=True)` is called without `exist_ok` on the
now-existing location (syrupy/__init__.py:145) — unlike the directory
branch which passes `dirs_exist_ok=True`. -/
theorem write_file_snapshot_twice_fails :
    _write_snapshot_collection (.dir .nil) ["snaps"] [("snap", .file [104, 105])]
        = .ok (.dir (.cons "snaps" (.dir (.cons "snap" (.file [104, 105]) .nil)) .nil))
      ∧ _write_snapshot_collection
          (.dir (.cons "snaps" (.dir (.cons "snap" (.file [104, 105]) .nil)) .nil))
          ["snaps"] [("snap", .file [104, 105])]
        = .error "FileExistsError" :=
  ⟨rfl, rfl⟩

theorem lookupE_none_of_not_mem : ∀ (es : FsEntries) (nm : String),
    nm ∉ namesOf es → lookupE es nm = none
  | .nil, _, _ => rfl
  | .cons m e r, nm, h => by
    simp only [namesOf, List.mem_cons] at h
    push_neg at h
    simp only [lookupE]
    rw [if_neg (fun hm => h.1 hm.symm)]
    exact lookupE_none_of_not_mem r nm h.2

theorem lookupE_removeChild : ∀ (es : FsEntries) (nm : String),
    (namesOf es).Nodup → lookupE (removeChild es nm) nm = none
  | .nil, _, _ => rfl
  | .cons m e r, nm, h => by
    simp only [namesOf, List.nodup_cons] at h
    simp only [removeChild]
    by_cases hm : m = nm
    · rw [if_pos hm]
      subst hm
      exact lookupE_none_of_not_mem r m h.1
    · rw [if_neg hm]
      simp only [lookupE]
      rw [if_neg hm]
      exact lookupE_removeChild r nm h.2

theorem lookupE_updateChild : ∀ (es : FsEntries) (nm : String) (e' : FsEntry),
    (∃ c, lookupE es nm = some c) →
    lookupE (updateChild es nm e') nm = some e'
  | .nil, nm, e', h => by
    obtain ⟨c, hc⟩ := h
    simp [lookupE] at hc
  | .cons m e0 r, nm, e', h => by
    simp only [updateChild]
    by_cases hm : m = nm
    · rw [if_pos hm]
      simp [lookupE]
    · rw [if_neg hm]
      simp only [lookupE]
      rw [if_neg hm]
      apply lookupE_updateChild r nm e'
      obtain ⟨c, hc⟩ := h
      simp only [lookupE] at hc
      rw [if_neg hm] at hc
      exact ⟨c, hc⟩

/-- After removing the entry at `location`, nothing is there any more
(needs unique names in the parent directory of `location`). -/
theorem getPath_removePath : ∀ (location : List String) (fs : FsEntry),
    location ≠ [] →
    (∀ es, getPath fs location.dropLast = some (.dir es) → (namesOf es).Nodup) →
    getPath (removePath fs location) location = none
  | [], _, hne, _ => absurd rfl hne
  | [nm], fs, _, hnd => by
    match fs with
    | .file c => rfl
    | .dir es =>
      have hnodup : (namesOf es).Nodup := hnd es rfl
      show getPath (.dir (removeChild es nm)) [nm] = none
      simp only [getPath]
      rw [lookupE_removeChild es nm hnodup]
  | nm :: rest1 :: rest, fs, _, hnd => by
    match fs with
    | .file c => rfl
    | .dir es =>
      show getPath (removePath (.dir es) (nm :: rest1 :: rest)) (nm :: rest1 :: rest) = none
      simp only [removePath]
      match hl : lookupE es nm with
      | none =>
        simp only [getPath, hl]
      | some child =>
        simp only [getPath]
        rw [lookupE_updateChild es nm _ ⟨child, hl⟩]
        apply getPath_removePath (rest1 :: rest) child (by simp)
        intro es' hes'
        apply hnd es'
        show getPath (.dir es) (nm :: (rest1 :: rest).dropLast) = some (.dir es')
        simp only [getPath, hl]
        exact hes'

/-- C8: `delete_snapshots` succeeds exactly when the stored path exists
(a delete of a nonexistent snapshot raises FileNotFoundError, never
silently ignored), and on success it removes the entry at the path —
directory subtrees and single files alike — so that neither the path nor
any descendant of it exists afterwards. -/
theorem delete_snapshots_spec (fs : FsEntry) (location : List String)
    (hne : location ≠ [])
    (hnd : ∀ es, getPath fs location.dropLast = some (.dir es) → (namesOf es).Nodup) :
    ((delete_snapshots fs location).toOption.isSome = (getPath fs location).isSome)
      ∧ (∀ fs', delete_snapshots fs location = .ok fs' →
          fs' = removePath fs location
            ∧ ∀ q, getPath fs' (location ++ q) = none) := by
  have hgone := getPath_removePath location fs hne hnd
  unfold delete_snapshots
  match hp : getPath fs location with
  | none =>
    refine ⟨rfl, ?_⟩
    intro fs' h
    simp [Except.toOption] at h
  | some (.file c) =>
    refine ⟨rfl, ?_⟩
    intro fs' h
    injection h with h
    subst h
    refine ⟨rfl, ?_⟩
    intro q
    rw [getPath_append, hgone]
    rfl
  | some (.dir es) =>
    refine ⟨rfl, ?_⟩
    intro fs' h
    injection h with h
    subst h
    refine ⟨rfl, ?_⟩
    intro q
    rw [getPath_append, hgone]
    rfl

/-- Witness for C8 at a concrete tree: deleting the directory snapshot
`a` succeeds and the subtree is gone. -/
theorem delete_snapshots_spec_witness :
    ((delete_snapshots
          (FsEntry.dir (.cons "a" (.dir (.cons "f" (.file [1]) .nil)) .nil))
          ["a"]).toOption.isSome
        = (getPath
            (FsEntry.dir (.cons "a" (.dir (.cons "f" (.file [1]) .nil)) .nil))
            ["a"]).isSome)
      ∧ (∀ fs', delete_snapshots
            (FsEntry.dir (.cons "a" (.dir (.cons "f" (.file [1]) .nil)) .nil))
            ["a"] = .ok fs' →
          fs' = removePath
              (FsEntry.dir (.cons "a" (.dir (.cons "f" (.file [1]) .nil)) .nil))
              ["a"]
            ∧ ∀ q, getPath fs' (["a"] ++ q) = none) :=
  delete_snapshots_spec
    (FsEntry.dir (.cons "a" (.dir (.cons "f" (.file [1]) .nil)) .nil)) ["a"]
    (by simp)
    (by
      intro es h
      injection h with h
      injection h with h
      subst h
      decide)

/-! ## DirDiff: the recursive tree comparator

`DirDiff` subclasses `filecmp.dircmp`, overriding `phase0` (listings are
filtered through `_filter` with `hide + ignore + EXCLUDED` and sorted) and
`phase3` (`filecmp.cmpfiles(..., shallow=False)`).  The phases are modelled
as standalone functions of the two listings, as the design notes of the
spec suggest; `subdirs` children are the entries of the common directories
(`dircmp.phase4`), compared with the same `ignore`/`hide` lists. -/

/-- `DirDiff.EXCLUDED` (diff.py:179-181): always-ignored internal names. -/
def EXCLUDED : List String := [GITKEEPER]

/-- `phase0`: filtered and sorted directory listing. -/
def dirListing (ignore hide : List String) (es : FsEntries) : List String :=
  sortNames (_filter (namesOf es) (hide ++ ignore ++ EXCLUDED))

/-- `phase1`: names present on both sides (listing names are unique on a
real filesystem, so the `normcase` dictionary is the identity map). -/
def commonN (ignore hide : List String) (le re : FsEntries) : List String :=
  (dirListing ignore hide le).filter
    (fun nm => (dirListing ignore hide re).contains nm)

/-- `phase1`: names only in the left (received) listing. -/
def left_only (ignore hide : List String) (le re : FsEntries) : List String :=
  (dirListing ignore hide le).filter
    (fun nm => !(dirListing ignore hide re).contains nm)

/-- `phase1`: names only in the right (snapshot) listing. -/
def right_only (ignore hide : List String) (le re : FsEntries) : List String :=
  (dirListing ignore hide re).filter
    (fun nm => !(dirListing ignore hide le).contains nm)

def isDirO : Option FsEntry → Bool
  | some (.dir _) => true
  | _ => false

def isFileO : Option FsEntry → Bool
  | some (.file _) => true
  | _ => false

/-- `phase2`: common names that are directories on both sides. -/
def common_dirs (ignore hide : List String) (le re : FsEntries) : List String :=
  (commonN ignore hide le re).filter
    (fun nm => isDirO (lookupE le nm) && isDirO (lookupE re nm))

/-- `phase2`: common names that are regular files on both sides. -/
def common_files (ignore hide : List String) (le re : FsEntries) : List String :=
  (commonN ignore hide le re).filter
    (fun nm => isFileO (lookupE le nm) && isFileO (lookupE re nm))

/-- `phase2`: common names whose type differs between the sides (or whose
stat failed — impossible in this fault-free model). -/
def common_funny (ignore hide : List String) (le re : FsEntries) : List String :=
  (commonN ignore hide le re).filter
    (fun nm => !(isDirO (lookupE le nm) && isDirO (lookupE re nm))
      && !(isFileO (lookupE le nm) && isFileO (lookupE re nm)))

inductive CmpRes where
  | same
  | diff
  | funny
  deriving DecidableEq, Repr

/-- `filecmp.cmpfiles(left, right, names, shallow=False)` verdict for one
name: equal byte contents compare equal, unequal contents (or a
non-regular entry, for which `filecmp.cmp` returns False) compare
different, and an `os.stat` failure — impossible here, every entry is
reachable — is funny. -/
def cmpFile (le re : FsEntries) (nm : String) : CmpRes :=
  match lookupE le nm, lookupE re nm with
  | some (.file c1), some (.file c2) => if c1 = c2 then .same else .diff
  | some _, some _ => .diff
  | _, _ => .funny

/-- `phase3` (overridden): the three `cmpfiles` buckets. -/
def same_files (ignore hide : List String) (le re : FsEntries) : List String :=
  (common_files ignore hide le re).filter
    (fun nm => decide (cmpFile le re nm = CmpRes.same))

def diff_files (ignore hide : List String) (le re : FsEntries) : List String :=
  (common_files ignore hide le re).filter
    (fun nm => decide (cmpFile le re nm = CmpRes.diff))

def funny_files (ignore hide : List String) (le re : FsEntries) : List String :=
  (common_files ignore hide le re).filter
    (fun nm => decide (cmpFile le re nm = CmpRes.funny))

/-- The entries of a common subdirectory (`dircmp.phase4` recurses on
`left/name`, `right/name`). -/
def childEntries (es : FsEntries) (nm : String) : FsEntries :=
  match lookupE es nm with
  | some (.dir es') => es'
  | _ => .nil

/-- `DirDiff.__bool__` (diff.py:189-198): any of the five phase lists
non-empty, or some subdirectory comparison true.  Fuel is structural; the
wrapper below passes a size based fuel, which always suffices
(`dirDiffBoolF_fuel`). -/
def dirDiffBoolF (ignore hide : List String) : Nat → FsEntries → FsEntries → Bool
  | 0, _, _ => false
  | f + 1, le, re =>
    !(left_only ignore hide le re).isEmpty ||
    !(right_only ignore hide le re).isEmpty ||
    !(common_funny ignore hide le re).isEmpty ||
    !(diff_files ignore hide le re).isEmpty ||
    !(funny_files ignore hide le re).isEmpty ||
    (common_dirs ignore hide le re).any (fun nm =>
      dirDiffBoolF ignore hide f (childEntries le nm) (childEntries re nm))

def dirDiffBool (ignore hide : List String) (le re : FsEntries) : Bool :=
  dirDiffBoolF ignore hide (sizeL le) le re

/-- Contents of the file entry with the given name (what
`FileDiff` reads back from `left/name` and `right/name`). -/
def contentOf (es : FsEntries) (nm : String) : List Nat :=
  match lookupE es nm with
  | some (.file c) => c
  | _ => []

/-- `DirDiff.diff_lines` (diff.py:210-230): the full `FileDiff` output for
each differing file, the added/missing two-line blocks, then the recursive
subdirectory output.  The subdirectory loop reassigns `prefix`
(`prefix = Path(name) if not prefix else prefix / name` — and a `Path` is
always truthy, so this is `prefix = prefix / name`), which the fold state
mirrors: the prefix accumulated so far is carried from one sibling to the
next. -/
def dirDiffLinesF (ignore hide : List String) :
    Nat → List String → List String → FsEntries → FsEntries → String → List String
  | 0, _, _, _, _, _ => []
  | f + 1, lp, rp, le, re, pfx =>
    (diff_files ignore hide le re).flatMap (fun nm =>
      fileDiffLines (contentOf le nm) (contentOf re nm)
        (fileDiffName (lp ++ [nm]) (rp ++ [nm]))) ++
    (left_only ignore hide le re).flatMap (fun nm =>
      ["+++ added: <received>/" ++ joinPath pfx nm, "--- N/A"]) ++
    (right_only ignore hide le re).flatMap (fun nm =>
      ["+++ N/A", "--- missing: <snapshot>/" ++ joinPath pfx nm]) ++
    ((common_dirs ignore hide le re).foldl
      (fun (acc : List String × String) nm =>
        let pfx' := joinPath acc.2 nm
        (acc.1 ++ dirDiffLinesF ignore hide f (lp ++ [nm]) (rp ++ [nm])
          (childEntries le nm) (childEntries re nm) pfx', pfx'))
      ([], pfx)).1

/-- `DirDiff.diff_lines()` at the root (initial prefix `Path("")`). -/
def dirDiffLines (ignore hide : List String) (lp rp : List String)
    (le re : FsEntries) : List String :=
  dirDiffLinesF ignore hide (sizeL le) lp rp le re ""

/-- C2 (failing input): the subdirectory loop of `diff_lines` reassigns
`prefix` inside the loop, so every sibling inherits the prefix of the
previously visited sibling.  With two sibling subdirectories `sub1`,
`sub2` (each holding one extra received file), the entry of `sub2` is
reported as `sub1/sub2/f2` instead of `sub2/f2` — the claim that each
child receives the parent prefix plus exactly its own name is violated. -/
theorem dirDiffLines_prefix_bug :
    dirDiffLines [] [] ["recv"] ["snap"]
        (.cons "sub1" (.dir (.cons "f1" (.file [97]) .nil))
          (.cons "sub2" (.dir (.cons "f2" (.file [98]) .nil)) .nil))
        (.cons "sub1" (.dir .nil) (.cons "sub2" (.dir .nil) .nil))
      = ["+++ added: <received>/sub1/f1", "--- N/A",
         "+++ added: <received>/sub1/sub2/f2", "--- N/A"] :=
  rfl

theorem lookupE_mapEntries : ∀ (es : FsEntries) (g : FsEntry → FsEntry) (nm : String),
    lookupE (mapEntries g es) nm = (lookupE es nm).map g
  | .nil, _, _ => rfl
  | .cons m e r, g, nm => by
    simp only [mapEntries, lookupE]
    by_cases hm : m = nm
    · rw [if_pos hm, if_pos hm]
      rfl
    · rw [if_neg hm, if_neg hm]
      exact lookupE_mapEntries r g nm

theorem sizeE_pos : ∀ e : FsEntry, 1 ≤ sizeE e
  | .file _ => le_refl 1
  | .dir es => by simp only [sizeE]; omega

theorem sizeL_pos : ∀ es : FsEntries, 1 ≤ sizeL es
  | .nil => le_refl 1
  | .cons _ e r => by
    have h1 := sizeE_pos e
    simp only [sizeL]
    omega

/-- Writing a snapshot turns every empty source directory (at any path)
into a directory holding exactly the zero-byte marker file. -/
theorem getPath_writeEntryF : ∀ (p : List String) (e : FsEntry) (f : Nat),
    sizeE e ≤ f → getPath e p = some (.dir .nil) →
    getPath (writeEntryF f e) p = some (.dir (.cons GITKEEPER (.file []) .nil)) := by
  intro p
  induction p with
  | nil =>
    intro e f hf h
    match e, h with
    | .file c, h =>
      exact absurd (show some (FsEntry.file c) = some (.dir .nil) from h) (by simp)
    | .dir es, h =>
      have h2 : es = FsEntries.nil := by
        have h3 : some (FsEntry.dir es) = some (FsEntry.dir .nil) := h
        injection h3 with h4
        injection h4 with h5
      subst h2
      match f, hf with
      | 0, hf =>
        exact absurd (show (2 : Nat) ≤ 0 from hf) (by omega)
      | f + 1, _ => rfl
  | cons nm rest ih =>
    intro e f hf h
    match e with
    | .file c =>
      exact absurd (show (none : Option FsEntry) = some (.dir .nil) from h) (by simp)
    | .dir .nil =>
      exact absurd (show (none : Option FsEntry) = some (.dir .nil) from h) (by simp)
    | .dir (.cons m e0 r) =>
      have h2 : ∃ child, lookupE (.cons m e0 r) nm = some child ∧
          getPath child rest = some (.dir .nil) := by
        revert h
        show getPath (.dir (.cons m e0 r)) (nm :: rest) = _ → _
        simp only [getPath]
        match hl : lookupE (.cons m e0 r) nm with
        | some child => exact fun h => ⟨child, rfl, h⟩
        | none => intro h; exact absurd h (by simp)
      obtain ⟨child, hl, hrest⟩ := h2
      have hsz : sizeE child < sizeL (.cons m e0 r) := lookupE_size _ nm child hl
      have hfe : 1 + sizeL (.cons m e0 r) ≤ f := by
        exact hf
      match f, hfe with
      | 0, hfe =>
        exact absurd hfe (by have := sizeL_pos (.cons m e0 r); omega)
      | f + 1, hfe =>
        show (match lookupE (mapEntries (writeEntryF f) (.cons m e0 r)) nm with
          | some e => getPath e rest
          | none => none) = some (.dir (.cons GITKEEPER (.file []) .nil))
        rw [lookupE_mapEntries _ _ nm, hl]
        exact ih child f (by omega) hrest

/-- The stored root of a directory snapshot is `writeEntryF` of the
source root. -/
theorem dir_writeDirEntries (srcEs : FsEntries) :
    FsEntry.dir (writeDirEntries srcEs) = writeEntryF (sizeL srcEs + 1) (.dir srcEs) := by
  match srcEs with
  | .nil => rfl
  | .cons m e r => rfl

theorem _filter_nil_left (skip : List String) : _filter [] skip = [] := by
  rw [_filter_eq_filter]
  rfl

theorem dirListing_nil (ignore hide : List String) : dirListing ignore hide .nil = [] := by
  unfold dirListing namesOf
  rw [_filter_nil_left]
  rfl

/-- The built-in exclusion filters the marker file out of every listing,
whatever the caller-supplied patterns are. -/
theorem dirListing_marker (ignore hide : List String) :
    dirListing ignore hide (.cons GITKEEPER (.file []) .nil) = [] := by
  unfold dirListing namesOf
  rw [_filter_eq_filter]
  have hfalse : (hide ++ ignore ++ EXCLUDED).all
      (fun pat => !globMatch GITKEEPER pat) = false := by
    apply List.all_eq_false.mpr
    refine ⟨GITKEEPER, by simp [EXCLUDED], ?_⟩
    have : globMatch GITKEEPER GITKEEPER = true := by decide
    simp [this]
  simp only [List.filter_cons, hfalse]
  rfl

/-- Comparing an empty source directory against its stored form (just the
marker file) finds no difference. -/
theorem dirDiffBool_nil_marker (ignore hide : List String) :
    dirDiffBool ignore hide .nil (.cons GITKEEPER (.file []) .nil) = false := by
  unfold dirDiffBool
  show dirDiffBoolF ignore hide (0 + 1) .nil (.cons GITKEEPER (.file []) .nil) = false
  simp only [dirDiffBoolF]
  unfold left_only right_only common_funny diff_files funny_files common_dirs
    common_files commonN
  rw [dirListing_nil, dirListing_marker]
  rfl

/-- C4: after a directory snapshot is written, every empty source
directory ends up at the destination containing exactly one entry, the
zero-byte `GITKEEPER` marker file; the built-in `EXCLUDED` list filters
that name out of every `DirDiff` listing (whatever `ignore`/`hide` say),
so the comparison of the empty source directory against its stored form
reports no difference. -/
theorem snapshot_empty_dir_law (ignore hide : List String)
    (srcEs : FsEntries) (p : List String)
    (h : getPath (.dir srcEs) p = some (.dir .nil)) :
    getPath (.dir (writeDirEntries srcEs)) p
        = some (.dir (.cons GITKEEPER (.file []) .nil))
      ∧ dirListing ignore hide (.cons GITKEEPER (.file []) .nil) = []
      ∧ dirDiffBool ignore hide .nil (.cons GITKEEPER (.file []) .nil) = false := by
  refine ⟨?_, dirListing_marker ignore hide, dirDiffBool_nil_marker ignore hide⟩
  rw [dir_writeDirEntries]
  exact getPath_writeEntryF p (.dir srcEs) (sizeL srcEs + 1)
    (by show 1 + sizeL srcEs ≤ sizeL srcEs + 1; omega) h

/-- Witness for C4 at a concrete tree with a nested empty directory. -/
theorem snapshot_empty_dir_law_witness :
    getPath (.dir (writeDirEntries
          (.cons "a" (.dir (.cons "empty" (.dir .nil) .nil)) .nil)))
        ["a", "empty"]
        = some (.dir (.cons GITKEEPER (.file []) .nil))
      ∧ dirListing [] [] (.cons GITKEEPER (.file []) .nil) = []
      ∧ dirDiffBool [] [] .nil (.cons GITKEEPER (.file []) .nil) = false :=
  snapshot_empty_dir_law [] []
    (.cons "a" (.dir (.cons "empty" (.dir .nil) .nil)) .nil) ["a", "empty"] rfl

theorem anyCongr {β : Type} {l : List β} {p q : β → Bool}
    (h : ∀ x ∈ l, p x = q x) : l.any p = l.any q := by
  induction l with
  | nil => rfl
  | cons x xs ih =>
    simp only [List.any_cons]
    rw [h x (by simp), ih (fun y hy => h y (List.mem_cons_of_mem x hy))]

theorem isFileO_some {o : Option FsEntry} (h : isFileO o = true) :
    ∃ c, o = some (.file c) := by
  match o with
  | some (.file c) => exact ⟨c, rfl⟩
  | some (.dir _) => simp [isFileO] at h
  | none => simp [isFileO] at h

theorem isDirO_some {o : Option FsEntry} (h : isDirO o = true) :
    ∃ es, o = some (.dir es) := by
  match o with
  | some (.dir es) => exact ⟨es, rfl⟩
  | some (.file _) => simp [isDirO] at h
  | none => simp [isDirO] at h

/-- In a fault-free filesystem `cmpfiles` never fails: the funny bucket of
`phase3` is always empty (its only sources are `os.stat`/read errors). -/
theorem funny_files_nil (ignore hide : List String) (le re : FsEntries) :
    funny_files ignore hide le re = [] := by
  unfold funny_files
  apply List.filter_eq_nil_iff.mpr
  intro nm hnm
  unfold common_files at hnm
  obtain ⟨_, hpred⟩ := List.mem_filter.mp hnm
  simp only [Bool.and_eq_true] at hpred
  obtain ⟨c1, h1⟩ := isFileO_some hpred.1
  obtain ⟨c2, h2⟩ := isFileO_some hpred.2
  simp only [cmpFile, h1, h2]
  by_cases hc : c1 = c2 <;> simp [hc]

theorem common_dirs_lookup {ignore hide : List String} {le re : FsEntries}
    {nm : String} (h : nm ∈ common_dirs ignore hide le re) :
    (∃ es, lookupE le nm = some (.dir es)) ∧ ∃ es, lookupE re nm = some (.dir es) := by
  unfold common_dirs at h
  obtain ⟨_, hpred⟩ := List.mem_filter.mp h
  simp only [Bool.and_eq_true] at hpred
  exact ⟨isDirO_some hpred.1, isDirO_some hpred.2⟩

/-- Any fuel of at least the size of the left tree computes the same
comparison verdict. -/
theorem dirDiffBoolF_fuel (ignore hide : List String) :
    ∀ (f g : Nat) (le re : FsEntries), sizeL le ≤ f → sizeL le ≤ g →
      dirDiffBoolF ignore hide f le re = dirDiffBoolF ignore hide g le re := by
  intro f
  induction f with
  | zero =>
    intro g le re hf _
    have := sizeL_pos le
    omega
  | succ f ih =>
    intro g le re hf hg
    match g, hg with
    | 0, hg =>
      have := sizeL_pos le
      omega
    | g + 1, hg =>
      simp only [dirDiffBoolF]
      have hany : (common_dirs ignore hide le re).any (fun nm =>
            dirDiffBoolF ignore hide f (childEntries le nm) (childEntries re nm))
          = (common_dirs ignore hide le re).any (fun nm =>
            dirDiffBoolF ignore hide g (childEntries le nm) (childEntries re nm)) := by
        apply anyCongr
        intro nm hnm
        obtain ⟨⟨es1, hes1⟩, _⟩ := common_dirs_lookup hnm
        have hsz : sizeE (.dir es1) < sizeL le := lookupE_size le nm _ hes1
        have hsz2 : sizeL es1 < sizeL le := by
          have : sizeE (.dir es1) = 1 + sizeL es1 := rfl
          omega
        have hchild : childEntries le nm = es1 := by
          unfold childEntries
          rw [hes1]
        rw [hchild]
        exact ih g es1 (childEntries re nm) (by omega) (by omega)
      rw [hany]

/-- C1: the `DirDiff` boolean verdict is true exactly when `left_only`,
`right_only`, `common_funny` or `diff_files` is non-empty, or some common
subdirectory compares different.  (`__bool__` also tests `funny_files`,
which is provably always empty in this fault-free filesystem model, so the
claimed four lists plus the subdirectory clause are exhaustive.) -/
theorem dirdiff_different_iff (ignore hide : List String) (le re : FsEntries) :
    dirDiffBool ignore hide le re = true ↔
      (left_only ignore hide le re ≠ [] ∨ right_only ignore hide le re ≠ [] ∨
       common_funny ignore hide le re ≠ [] ∨ diff_files ignore hide le re ≠ [] ∨
       ∃ nm ∈ common_dirs ignore hide le re,
         dirDiffBool ignore hide (childEntries le nm) (childEntries re nm) = true) := by
  unfold dirDiffBool
  obtain ⟨f, hf⟩ : ∃ f, sizeL le = f + 1 :=
    ⟨sizeL le - 1, by have := sizeL_pos le; omega⟩
  rw [hf]
  simp only [dirDiffBoolF]
  rw [funny_files_nil]
  have hchild : (common_dirs ignore hide le re).any (fun nm =>
        dirDiffBoolF ignore hide f (childEntries le nm) (childEntries re nm))
      = (common_dirs ignore hide le re).any (fun nm =>
        dirDiffBool ignore hide (childEntries le nm) (childEntries re nm)) := by
    apply anyCongr
    intro nm hnm
    obtain ⟨⟨es1, hes1⟩, _⟩ := common_dirs_lookup hnm
    have hsz : sizeE (.dir es1) < sizeL le := lookupE_size le nm _ hes1
    have hsz2 : sizeL es1 < sizeL le := by
      have : sizeE (.dir es1) = 1 + sizeL es1 := rfl
      omega
    have hchild2 : childEntries le nm = es1 := by
      unfold childEntries
      rw [hes1]
    unfold dirDiffBool
    rw [hchild2]
    exact dirDiffBoolF_fuel ignore hide f (sizeL es1) es1 (childEntries re nm)
      (by omega) (le_refl _)
  rw [hchild]
  simp only [Bool.or_eq_true, Bool.not_eq_true', List.isEmpty_eq_false, List.isEmpty_nil,
    List.any_eq_true, Bool.not_true, Bool.false_eq_true, or_false]
  tauto

end DirEqual
